import Mathlib

/-!
Verification development for the SeedAVideo repository (src/gentorrent.py).

The embedding models bytes as `Nat` (values 0..255 in practice) and byte
strings as `List Nat`.  The bencoding value model (`Value`), the encoder
(`bencode`, from the source function of the same name), the decoder
(`bdecode`, from the source function of the same name), the piece hasher
and the Merkle ("tree mode") reduction of `Metainfo.__init__`, the
`Metainfo.infohash` property and the output behaviour of `main` are all
translated from src/gentorrent.py.  The cryptographic digest (`hashlib.sha1`)
is kept abstract: it is a parameter `digest : List Nat → List Nat`, with
the fact that SHA-1 digests are 20 bytes long supplied as a hypothesis
where the control flow of the source depends on it.
-/

namespace Gentorrent

/-- ASCII bytes of a string literal (all keys in the source are ASCII). -/
def strBytes (s : String) : List Nat := s.data.map Char.toNat

/-! ### The value model

`bdecode` returns "a composition of bytes, int, dictionary or list";
`bencode` accepts the same.  Python dictionaries are modelled as
association lists from byte-string keys to values.  (Decoded dictionary
keys are byte strings in every input the claims touch; the Python code
would also accept an int key, which this model cannot represent — see the
comment at `parsePairs`.) -/

inductive Value where
  | str  (s : List Nat)
  | int  (n : Int)
  | list (l : List Value)
  | dict (d : List (List Nat × Value))
deriving Repr

/-! ### Decimal rendering, from Python's `"%d" % n` -/

/-- Most-significant-first decimal digits of a positive number (fuel
recursion on the number itself, which bounds the digit count). -/
def natDecAux : Nat → Nat → List Nat
  | 0, _ => []
  | fuel + 1, n => if n = 0 then [] else natDecAux fuel (n / 10) ++ [n % 10 + 48]

/-- Decimal ASCII digits of a natural number, most significant first
(`"%d" % n` for `n ≥ 0`). -/
def natDec (n : Nat) : List Nat :=
  if n = 0 then [48] else natDecAux n n

/-- Decimal ASCII of an integer: an optional leading `'-'` (45) then the
digits (`"%d" % n`). -/
def intDec (n : Int) : List Nat :=
  if n < 0 then 45 :: natDec n.natAbs else natDec n.toNat

/-! ### Byte-lexicographic order on byte strings (Python `bytes.__lt__`),
used by `sorted(data.keys())` in `bencode`. -/

def lexLt : List Nat → List Nat → Bool
  | [], [] => false
  | [], _ :: _ => true
  | _ :: _, [] => false
  | a :: as, b :: bs => if a < b then true else if b < a then false else lexLt as bs

/-- Insert a key/value pair into a key-sorted list of pairs (helper for
`sortPairs`). -/
def insertPair (p : List Nat × Value) :
    List (List Nat × Value) → List (List Nat × Value)
  | [] => [p]
  | q :: qs => if lexLt q.1 p.1 then q :: insertPair p qs else p :: q :: qs

/-- Sort an association list by key in ascending byte order; this models
iterating `for key in sorted(data.keys())` over a Python dict. -/
def sortPairs : List (List Nat × Value) → List (List Nat × Value)
  | [] => []
  | p :: ps => insertPair p (sortPairs ps)

/-! ### The encoder, from `bencode` (src/gentorrent.py:149-214)

The source sorts the keys of every dictionary at the moment it encodes
it.  The model factors this into a pure tree transformation `sortValue`
(sort the keys of every dictionary in the tree) followed by an
order-preserving serializer `bencodeRaw`; `bencode = bencodeRaw ∘ sortValue`
performs exactly the source's traversal. -/

mutual

/-- Order-preserving serializer: `<decimal length>:<bytes>` for strings
(bencode lines 191-194), `i<decimal>e` for ints (195-198),
`d...e` for dicts encoding pairs in the given order (199-205),
`l...e` for lists (206-211). -/
def bencodeRaw : Value → List Nat
  | .str s => natDec s.length ++ 58 :: s
  | .int n => 105 :: (intDec n ++ [101])
  | .list l => 108 :: (bencodeList l ++ [101])
  | .dict d => 100 :: (bencodePairs d ++ [101])

def bencodeList : List Value → List Nat
  | [] => []
  | v :: vs => bencodeRaw v ++ bencodeList vs

def bencodePairs : List (List Nat × Value) → List Nat
  | [] => []
  | (k, v) :: ps => bencodeRaw (.str k) ++ bencodeRaw v ++ bencodePairs ps

end

mutual

/-- Sort the keys of every dictionary in a value tree (the key order the
source imposes while encoding). -/
def sortValue : Value → Value
  | .str s => .str s
  | .int n => .int n
  | .list l => .list (sortValueList l)
  | .dict d => .dict (sortPairs (sortValuePairs d))

def sortValueList : List Value → List Value
  | [] => []
  | v :: vs => sortValue v :: sortValueList vs

def sortValuePairs : List (List Nat × Value) → List (List Nat × Value)
  | [] => []
  | (k, v) :: ps => (k, sortValue v) :: sortValuePairs ps

end

/-- The encoder `bencode` of src/gentorrent.py:149-214 (returning the
produced buffer). -/
def bencode (v : Value) : List Nat := bencodeRaw (sortValue v)

/-! ### The decoder, from `bdecode` (src/gentorrent.py:40-146)

The inner function `aux` reads from a `BytesIO` stream; here the stream
is the list of not-yet-consumed bytes.  `parseNum` is the digit-reading
loop shared by the string and int branches: it returns the accumulated
number, the first non-digit byte read (`none` at end of input, where
`data.read(1)` returns `b''`), and the remaining stream.  The recursion
of `aux` is modelled with a fuel parameter; `bdecode` supplies
`2 * length + 2` fuel, an upper bound on the call depth, which is at most
two calls per input byte (each child parse consumes at least one byte). -/

def parseNum (acc : Nat) : List Nat → Nat × Option Nat × List Nat
  | [] => (acc, none, [])
  | c :: rest =>
    if 48 ≤ c ∧ c ≤ 57 then parseNum (acc * 10 + (c - 48)) rest
    else (acc, some c, rest)

mutual

/-- `aux(data, magic)` of `bdecode`: the head of the input is the magic
byte.  Returns the decoded value and the remaining stream, or `none`
where the source raises `ValueError`. -/
def auxV : Nat → List Nat → Option (Value × List Nat)
  | 0, _ => none
  | _ + 1, [] => none
  | fuel + 1, magic :: rest =>
    if 48 ≤ magic ∧ magic ≤ 57 then
      -- a string: `<length>:<bytes>` (bdecode lines 81-99)
      match parseNum (magic - 48) rest with
      | (len, sep, rest1) =>
        if sep = some 58 then
          if rest1.length < len then none  -- premature end of string (line 96)
          else some (.str (rest1.take len), rest1.drop len)
        else none                          -- separator b':' not found (line 91)
    else if magic = 105 then
      -- an int: `i<digits>e` (lines 100-112); note: no '-' handling
      match parseNum 0 rest with
      | (n, fin, rest1) =>
        if fin = some 101 then some (.int (Int.ofNat n), rest1)
        else none                          -- end byte b'e' not found (line 109)
    else if magic = 100 then
      -- a dict (lines 113-126)
      match parsePairs fuel rest with
      | some (d, rest1) => some (.dict d, rest1)
      | none => none
    else if magic = 108 then
      -- a list (lines 127-138)
      match parseList fuel rest with
      | some (l, rest1) => some (.list l, rest1)
      | none => none
    else none                              -- not valid bencoded data (line 140)

/-- The `while current and current != b'e'` loop of the list branch.
Returns `none` when the input ends before the terminator (line 135-137). -/
def parseList : Nat → List Nat → Option (List Value × List Nat)
  | 0, _ => none
  | _ + 1, [] => none
  | fuel + 1, c :: rest =>
    if c = 101 then some ([], rest)
    else
      match auxV fuel (c :: rest) with
      | some (v, rest1) =>
        match parseList fuel rest1 with
        | some (vs, rest2) => some (v :: vs, rest2)
        | none => none
      | none => none

/-- The `while current and current != b'e'` loop of the dict branch.
The source parses the key with `aux` (any value) and stores `d[key] =
value`; the model requires the key to be a byte string, which covers
every input in the spec (a Python list or dict key would raise just as
`none` here; an int key, which Python would accept, is not
representable in `Value.dict`, and no claim exercises one).  The model
collects pairs in encounter order (a Python dict would overwrite a
duplicate key; no claim exercises duplicate keys). -/
def parsePairs : Nat → List Nat → Option (List (List Nat × Value) × List Nat)
  | 0, _ => none
  | _ + 1, [] => none
  | fuel + 1, c :: rest =>
    if c = 101 then some ([], rest)
    else
      match auxV fuel (c :: rest) with
      | some (.str k, rest1) =>
        match auxV fuel rest1 with
        | some (v, rest2) =>
          match parsePairs fuel rest2 with
          | some (ps, rest3) => some ((k, v) :: ps, rest3)
          | none => none
        | none => none
      | some _ => none
      | none => none

end

/-- `bdecode(data, offset=0)` of src/gentorrent.py:40-146.  The source
accepts an `offset` keyword argument but never uses it: the body wraps
`data` in `BytesIO(data)` and decodes from position 0.  It returns the
decoded value only (no consumed-byte count); `none` models a raised
`ValueError`. -/
def bdecode (data : List Nat) (offset : Nat := 0) : Option Value :=
  (auxV (2 * data.length + 2) data).map Prod.fst

/-! ### The chunk hasher, from `Metainfo.__init__`

Reading a file in pieces: a `read(n)` on a regular file returns `n`
bytes, or everything that remains when fewer than `n` remain; the model
takes the file's content as a byte list and `read(n)` is `take n`. -/

/-- The single-file piece loop of `Metainfo.__init__`
(src/gentorrent.py:313-324): read `piece_length` bytes, stop on an empty
read, hash the chunk, stop after a short chunk.  Returns the list of
per-piece digests (the source concatenates them into `pieces`). -/
def hashSingle (digest : List Nat → List Nat) (L : Nat) (content : List Nat) :
    List (List Nat) :=
  if (content.take L).length = 0 then []
  else
    digest (content.take L) ::
      (if (content.take L).length < L then []
       else hashSingle digest L (content.drop L))
termination_by content.length
decreasing_by
  simp only [List.length_take, List.length_drop] at *
  omega

/-- The per-file loop of the directory branch (src/gentorrent.py:341-356):
read `piece_length - len(incomplete_chunk)` bytes; an empty read ends the
file; a read that does not complete the chunk is kept in the accumulator
for the next file; a completed chunk is hashed and the accumulator reset.
Returns the emitted digests and the new accumulator. -/
def hashFile (digest : List Nat → List Nat) (L : Nat) (content acc : List Nat) :
    List (List Nat) × List Nat :=
  if (content.take (L - acc.length)).length = 0 then ([], acc)
  else if acc.length + (content.take (L - acc.length)).length < L then
    ([], acc ++ content.take (L - acc.length))
  else
    let r := hashFile digest L (content.drop (L - acc.length)) []
    (digest (acc ++ content.take (L - acc.length)) :: r.1, r.2)
termination_by content.length
decreasing_by
  simp only [List.length_take, List.length_drop] at *
  omega

/-- The directory branch of `Metainfo.__init__` (src/gentorrent.py:331-362):
fold the per-file loop over the files in traversal order, carrying the
incomplete-chunk accumulator across file boundaries, and hash a final
non-empty incomplete chunk after the last file (lines 360-362). -/
def hashFiles (digest : List Nat → List Nat) (L : Nat) :
    List (List Nat) → List Nat → List (List Nat)
  | [], acc => if acc = [] then [] else [digest acc]
  | f :: fs, acc =>
    (hashFile digest L f acc).1
      ++ hashFiles digest L fs (hashFile digest L f acc).2

/-! ### The Merkle ("tree mode") reduction, from `Metainfo.__init__`
(src/gentorrent.py:363-385).

`pieces` is the flat bytearray of concatenated 20-byte hashes.  One pass
of the `for i in range(0, len(pieces) // 2, 20)` loop together with the
truncation `del pieces[len(pieces)//2:]` replaces each consecutive
40-byte block by the digest of that block (the in-place writes at
`pieces[i:i+20]` never overlap the reads at `pieces[2*i:2*i+40]` before
they happen); `hashPairs` is that pass. -/

def hashPairs (digest : List Nat → List Nat) (l : List Nat) : List Nat :=
  if l = [] then [] else digest (l.take 40) ++ hashPairs digest (l.drop 40)
termination_by l.length
decreasing_by
  rename_i h
  have : l.length ≠ 0 := fun hl => h (List.eq_nil_of_length_eq_zero hl)
  simp only [List.length_drop]
  omega

/-- The `while len(pieces) > 20` loop (lines 369-384), fuel-bounded: if
the byte count is not a multiple of 40 (an odd number of 20-byte hashes)
the current padding value is appended, then pairs are hashed, and the
padding for the next level becomes `sha1(2 * padding)`.  The fuel
supplied by `merkleRoot` always suffices (each pass at least halves the
number of hashes). -/
def merkleLoop (digest : List Nat → List Nat) :
    Nat → List Nat → List Nat → List Nat
  | 0, pieces, _ => pieces
  | fuel + 1, pieces, padding =>
    if pieces.length > 20 then
      merkleLoop digest fuel
        (hashPairs digest
          (if pieces.length % 40 ≠ 0 then pieces ++ padding else pieces))
        (digest (padding ++ padding))
    else pieces

/-- The full tree-mode aggregation: start with `padding = 20 * b"\0"`
(line 366) and reduce until at most one 20-byte hash remains. -/
def merkleRoot (digest : List Nat → List Nat) (pieces : List Nat) : List Nat :=
  merkleLoop digest pieces.length pieces (List.replicate 20 0)

/-! ### The metainfo builder and infohash, from `Metainfo`
(src/gentorrent.py:247-402), single-file branch.

Python dictionaries are modelled as association lists; `bencode` sorts
keys, so the stored order is irrelevant to serialization, and the model
keeps the source's insertion order. -/

/-- The `info` dictionary built by `Metainfo.__init__` for a single file
(lines 302-326 and 363-388): `piece length`, optional `private`, `name`,
`length`, and either the flat `pieces` or the Merkle `root hash`.
(`md5sum` is modelled switched off, its default.) -/
def buildInfo (digest : List Nat → List Nat) (L : Nat)
    (nm content : List Nat) (priv merkle : Bool) : Value :=
  let pieces := (hashSingle digest L content).foldr (· ++ ·) []
  Value.dict
    ([(strBytes "piece length", .int L)]
      ++ (if priv then [(strBytes "private", .int 1)] else [])
      ++ [(strBytes "name", .str nm),
          (strBytes "length", .int content.length)]
      ++ (if merkle then [(strBytes "root hash", .str (merkleRoot digest pieces))]
          else [(strBytes "pieces", .str pieces)]))

/-- `"created by"` value: `fullname = "gentorrent 1.0"` (lines 35-37, 300). -/
def fullnameBytes : List Nat := strBytes "gentorrent 1.0"

/-- The metainfo structure: the top-level dictionary (`self`, a dict
subclass) and the `self.info` shortcut into it (line 390). -/
structure Metainfo where
  top : Value
  info : Value

/-- `Metainfo.__init__` (lines 282-303, single-file branch, without the
`nodes`/`httpseeds`/`url_list` options, all defaulting to `None`):
`announce` (first URL of the first tier), `announce-list` when more than
one URL was given, `creation date` (the clock is the explicit parameter
`now`), optional `comment`, `created by`, and `info`. -/
def buildMetainfo (digest : List Nat → List Nat) (L : Nat)
    (nm content : List Nat) (announce : List (List (List Nat)))
    (comment : Option (List Nat)) (now : Nat) (priv merkle : Bool) : Metainfo :=
  let info := buildInfo digest L nm content priv merkle
  { top := Value.dict
      ((match announce with
        | (u :: us) :: tiers =>
          [(strBytes "announce", .str u)]
            ++ (if us ≠ [] ∨ tiers ≠ [] then
                  [(strBytes "announce-list",
                    .list (announce.map (fun tier => .list (tier.map .str))))]
                else [])
        | _ => [])
        ++ [(strBytes "creation date", .int now)]
        ++ (match comment with
            | some c => if c = [] then [] else [(strBytes "comment", .str c)]
            | none => [])
        ++ [(strBytes "created by", .str fullnameBytes),
            (strBytes "info", info)])
    info := info }

/-- One hex digit, lowercase, as produced by `hexdigest()`. -/
def hexChar (n : Nat) : Nat := if n < 10 then 48 + n else 87 + n

/-- `hexdigest()` of a byte string: two lowercase hex digits per byte. -/
def hexBytes (l : List Nat) : List Nat :=
  l.flatMap (fun b => [hexChar (b / 16), hexChar (b % 16)])

/-- `Metainfo.infohash` (src/gentorrent.py:398-402):
`sha1(bencode(self.info)).hexdigest()` — the digest of the canonical
encoding of the `info` sub-dictionary only. -/
def infohash (digest : List Nat → List Nat) (m : Metainfo) : List Nat :=
  hexBytes (digest (bencode m.info))

/-! ### The output behaviour of `main` (src/gentorrent.py:506-508)

```
with open(infoname, 'wb') as infofile:
    metainfo = Metainfo(prog_args.filename, **func_args)
    infofile.write(bencode(metainfo))
```

The destination file is modelled as `Option (List Nat)` (`none` = the
file does not exist).  `open(infoname, 'wb')` creates the file, or
truncates it to empty, before anything else runs; the build
(`Metainfo(...)` followed by `bencode`) either produces the full encoded
bundle or raises, modelled by `Option (List Nat)`; on success the bytes
are written in one `write` call. -/

inductive FsEvent where
  | openTrunc : FsEvent
  | writeAll : List Nat → FsEvent

/-- Effect of one filesystem event on the destination file. -/
def applyEvent : Option (List Nat) → FsEvent → Option (List Nat)
  | _, .openTrunc => some []
  | f, .writeAll bs => match f with | some _ => some bs | none => none

/-- The events `main` performs on the destination: it always opens
(creating or truncating) first; the write happens only if the build
succeeded. -/
def mainEvents (build : Option (List Nat)) : List FsEvent :=
  .openTrunc :: (match build with | some bs => [.writeAll bs] | none => [])

/-- Destination file content after running `main`, given its prior
content `dest0` and the outcome of the in-memory build. -/
def runMain (dest0 : Option (List Nat)) (build : Option (List Nat)) :
    Option (List Nat) :=
  (mainEvents build).foldl applyEvent dest0

/-! ### Validity predicates on value trees -/

mutual

/-- All integers in the tree are non-negative (the only shape the
decoder can produce, since it has no `'-'` handling). -/
def intsNonneg : Value → Bool
  | .str _ => true
  | .int n => decide (0 ≤ n)
  | .list l => intsNonnegList l
  | .dict d => intsNonnegPairs d

def intsNonnegList : List Value → Bool
  | [] => true
  | v :: vs => intsNonneg v && intsNonnegList vs

def intsNonnegPairs : List (List Nat × Value) → Bool
  | [] => true
  | (_, v) :: ps => intsNonneg v && intsNonnegPairs ps

end

/-- Keys in strictly ascending byte-lexicographic order (hence unique). -/
def sortedKeys : List (List Nat) → Bool
  | [] => true
  | [_] => true
  | a :: b :: r => lexLt a b && sortedKeys (b :: r)

mutual

/-- A constructible tree in canonical form: every dictionary has its
keys strictly sorted (as a Python dict rendered canonically), and every
integer is non-negative. -/
def canonicalV : Value → Bool
  | .str _ => true
  | .int n => decide (0 ≤ n)
  | .list l => canonicalL l
  | .dict d => sortedKeys (d.map Prod.fst) && canonicalP d

def canonicalL : List Value → Bool
  | [] => true
  | v :: vs => canonicalV v && canonicalL vs

def canonicalP : List (List Nat × Value) → Bool
  | [] => true
  | (_, v) :: ps => canonicalV v && canonicalP ps

end

/-! ### Auxiliary definitions used by the statements and proofs -/

/-- The non-strict key order used for sortedness of `sortPairs`. -/
def keyLe (p q : List Nat × Value) : Prop := lexLt q.1 p.1 = false

/-- Specification-side windowing: split a byte stream into its complete
`L`-byte windows and the remaining (shorter) tail.  The chunk-hasher
theorems relate the source's read loops to this function. -/
def chunksExact (L : Nat) (c : List Nat) : List (List Nat) × List Nat :=
  if L = 0 ∨ c.length < L then ([], c)
  else
    ((c.take L) :: (chunksExact L (c.drop L)).1, (chunksExact L (c.drop L)).2)
termination_by c.length
decreasing_by
  all_goals simp only [List.length_drop]; omega

/-- An injective digest with byte-valued output (a stand-in hash used to
instantiate digest-injectivity hypotheses in witnesses): each input
number becomes a run of ones of that length followed by a zero. -/
def unaryDigest (l : List Nat) : List Nat :=
  l.flatMap (fun n => List.replicate n 1 ++ [0])

/-! ## Lemmas: decimal digits and `parseNum` -/

theorem natDecAux_ne_nil (fuel n : Nat) (h1 : 1 ≤ n) (hf : n ≤ fuel) :
    natDecAux fuel n ≠ [] := by
  obtain ⟨f, rfl⟩ : ∃ f, fuel = f + 1 := ⟨fuel - 1, by omega⟩
  rw [natDecAux, if_neg (by omega)]
  simp

theorem natDecAux_isDigit : ∀ fuel n, ∀ c ∈ natDecAux fuel n,
    48 ≤ c ∧ c ≤ 57 := by
  intro fuel
  induction fuel with
  | zero =>
    intro n c hc
    simp [natDecAux] at hc
  | succ f ih =>
    intro n c hc
    rw [natDecAux] at hc
    by_cases hn : n = 0
    · rw [if_pos hn] at hc
      simp at hc
    · rw [if_neg hn] at hc
      simp only [List.mem_append, List.mem_singleton] at hc
      rcases hc with hc | rfl
      · exact ih _ c hc
      · have : n % 10 < 10 := Nat.mod_lt _ (by norm_num)
        omega

theorem natDecAux_foldl : ∀ fuel n acc, n ≤ fuel →
    (natDecAux fuel n).foldl (fun a d => a * 10 + (d - 48)) acc
      = acc * 10 ^ (natDecAux fuel n).length + n := by
  intro fuel
  induction fuel with
  | zero =>
    intro n acc h
    have : n = 0 := by omega
    subst this
    simp [natDecAux]
  | succ f ih =>
    intro n acc h
    by_cases hn : n = 0
    · subst hn
      simp [natDecAux]
    · rw [natDecAux, if_neg hn, List.foldl_append]
      simp only [List.foldl_cons, List.foldl_nil, List.length_append,
        List.length_cons, List.length_nil]
      rw [ih (n / 10) acc (by omega)]
      have hmod : n % 10 + 48 - 48 = n % 10 := by omega
      rw [hmod]
      calc (acc * 10 ^ (natDecAux f (n / 10)).length + n / 10) * 10 + n % 10
          = acc * 10 ^ (natDecAux f (n / 10)).length * 10
            + (10 * (n / 10) + n % 10) := by ring
        _ = acc * 10 ^ (natDecAux f (n / 10)).length * 10 + n := by
            rw [Nat.div_add_mod]
        _ = acc * 10 ^ ((natDecAux f (n / 10)).length + 1) + n := by ring

theorem natDec_ne_nil (n : Nat) : natDec n ≠ [] := by
  unfold natDec
  split
  · simp
  · rename_i h
    exact natDecAux_ne_nil n n (by omega) le_rfl

theorem natDec_isDigit (n : Nat) : ∀ c ∈ natDec n, 48 ≤ c ∧ c ≤ 57 := by
  intro c hc
  unfold natDec at hc
  split at hc
  · simp at hc
    omega
  · exact natDecAux_isDigit n n c hc

theorem natDec_foldl (n : Nat) :
    (natDec n).foldl (fun a d => a * 10 + (d - 48)) 0 = n := by
  unfold natDec
  split
  · rename_i h
    simp [h]
  · rw [natDecAux_foldl n n 0 le_rfl]
    simp

theorem parseNum_append_digits (ds : List Nat) (acc : Nat) (rest : List Nat)
    (h : ∀ d ∈ ds, 48 ≤ d ∧ d ≤ 57) :
    parseNum acc (ds ++ rest)
      = parseNum (ds.foldl (fun a d => a * 10 + (d - 48)) acc) rest := by
  induction ds generalizing acc with
  | nil => simp
  | cons d ds ih =>
    have hd := h d (by simp)
    simp only [List.cons_append, parseNum, hd, and_self, if_pos, List.foldl_cons]
    exact ih _ (fun x hx => h x (by simp [hx]))

theorem parseNum_nondigit (acc c : Nat) (rest : List Nat)
    (h : ¬(48 ≤ c ∧ c ≤ 57)) : parseNum acc (c :: rest) = (acc, some c, rest) := by
  simp [parseNum, h]

/-- Reading the digits of `n` (the head already consumed into the
accumulator) followed by a non-digit terminator. -/
theorem parseNum_natDec_tail (n c : Nat) (rest : List Nat)
    (hc : ¬(48 ≤ c ∧ c ≤ 57)) (d : Nat) (ds : List Nat)
    (hnd : natDec n = d :: ds) :
    parseNum (d - 48) (ds ++ c :: rest) = (n, some c, rest) := by
  have hdig : ∀ x ∈ ds, 48 ≤ x ∧ x ≤ 57 := fun x hx =>
    natDec_isDigit n x (by simp [hnd, hx])
  rw [parseNum_append_digits ds _ _ hdig, parseNum_nondigit _ _ _ hc]
  have := natDec_foldl n
  rw [hnd] at this
  simp only [List.foldl_cons] at this
  rw [show (0 * 10 + (d - 48)) = d - 48 by omega] at this
  rw [this]

/-- Reading all the digits of `n` starting from accumulator 0. -/
theorem parseNum_natDec (n c : Nat) (rest : List Nat)
    (hc : ¬(48 ≤ c ∧ c ≤ 57)) :
    parseNum 0 (natDec n ++ c :: rest) = (n, some c, rest) := by
  rw [parseNum_append_digits _ _ _ (natDec_isDigit n), parseNum_nondigit _ _ _ hc,
    natDec_foldl]

/-! ## Lemmas: the byte-lexicographic order and key sorting -/

theorem lexLt_irrefl (a : List Nat) : lexLt a a = false := by
  induction a with
  | nil => rfl
  | cons x xs ih => simp [lexLt, ih]

theorem lexLt_asymm (a b : List Nat) :
    lexLt a b = true → lexLt b a = true → False := by
  induction a generalizing b with
  | nil => cases b <;> simp [lexLt]
  | cons x xs ih =>
    cases b with
    | nil => simp [lexLt]
    | cons y ys =>
      intro hab hba
      simp only [lexLt] at hab hba
      by_cases h1 : x < y
      · by_cases h2 : y < x
        · omega
        · rw [if_neg h2, if_pos h1] at hba
          exact absurd hba (by simp)
      · by_cases h2 : y < x
        · rw [if_neg h1, if_pos h2] at hab
          exact absurd hab (by simp)
        · rw [if_neg h1, if_neg h2] at hab
          rw [if_neg h2, if_neg h1] at hba
          exact ih ys hab hba

theorem lexLt_connex (a b : List Nat) (h : a ≠ b) :
    lexLt a b = true ∨ lexLt b a = true := by
  induction a generalizing b with
  | nil =>
    cases b with
    | nil => exact absurd rfl h
    | cons y ys => simp [lexLt]
  | cons x xs ih =>
    cases b with
    | nil => simp [lexLt]
    | cons y ys =>
      by_cases hxy : x = y
      · subst hxy
        have : xs ≠ ys := fun he => h (by rw [he])
        simpa [lexLt] using ih ys this
      · simp only [lexLt]
        split_ifs <;> first | simp | omega

theorem lexLt_trans (a b c : List Nat) :
    lexLt a b = true → lexLt b c = true → lexLt a c = true := by
  induction a generalizing b c with
  | nil =>
    intro h1 h2
    cases b with
    | nil => simp [lexLt] at h1
    | cons y ys => cases c <;> simp [lexLt] at h2 ⊢
  | cons x xs ih =>
    intro h1 h2
    cases b with
    | nil => simp [lexLt] at h1
    | cons y ys =>
      cases c with
      | nil => simp [lexLt] at h2
      | cons z zs =>
        simp only [lexLt] at h1 h2 ⊢
        by_cases hxy : x < y
        · by_cases hyz : y < z
          · rw [if_pos (by omega)]
          · by_cases hzy : z < y
            · rw [if_neg hyz, if_pos hzy] at h2
              exact absurd h2 (by simp)
            · have : y = z := by omega
              subst this
              rw [if_pos hxy]
        · by_cases hyx : y < x
          · rw [if_neg hxy, if_pos hyx] at h1
            exact absurd h1 (by simp)
          · have hxy' : x = y := by omega
            subst hxy'
            rw [if_neg hxy, if_neg hyx] at h1
            by_cases hyz : x < z
            · rw [if_pos hyz]
            · by_cases hzy : z < x
              · rw [if_neg hyz, if_pos hzy] at h2
                exact absurd h2 (by simp)
              · have : x = z := by omega
                subst this
                rw [if_neg hyz, if_neg hzy] at h2
                rw [if_neg hyz, if_neg hzy]
                exact ih ys zs h1 h2

/-- Transitivity of the non-strict order `¬ lexLt · ·`. -/
theorem lexLt_le_trans (a b c : List Nat)
    (h1 : lexLt b a = false) (h2 : lexLt c b = false) : lexLt c a = false := by
  by_contra h
  replace h : lexLt c a = true := by
    cases hca : lexLt c a <;> simp_all
  by_cases hcb : c = b
  · subst hcb
    simp_all
  · rcases lexLt_connex c b hcb with hlt | hlt
    · simp_all
    · have := lexLt_trans b c a hlt h
      simp_all

theorem insertPair_perm (p : List Nat × Value) (l : List (List Nat × Value)) :
    (insertPair p l).Perm (p :: l) := by
  induction l with
  | nil => simp [insertPair]
  | cons q qs ih =>
    unfold insertPair
    split
    · exact (ih.cons q).trans (List.Perm.swap p q qs)
    · exact List.Perm.refl _

theorem sortPairs_perm (l : List (List Nat × Value)) :
    (sortPairs l).Perm l := by
  induction l with
  | nil => simp [sortPairs]
  | cons p ps ih => exact (insertPair_perm p (sortPairs ps)).trans (ih.cons p)

theorem insertPair_sorted (p : List Nat × Value) (l : List (List Nat × Value))
    (h : l.Pairwise keyLe) : (insertPair p l).Pairwise keyLe := by
  induction l with
  | nil => simp [insertPair]
  | cons q qs ih =>
    rw [List.pairwise_cons] at h
    unfold insertPair
    split
    · rename_i hq
      rw [List.pairwise_cons]
      refine ⟨fun r hr => ?_, ih h.2⟩
      have : r = p ∨ r ∈ qs := by
        have := (insertPair_perm p qs).mem_iff.mp hr
        simpa using this
      rcases this with rfl | hr
      · unfold keyLe
        cases hpq : lexLt r.1 q.1
        · rfl
        · exact absurd (lexLt_asymm _ _ hq hpq) (fun h => h)
      · exact h.1 r hr
    · rename_i hq
      rw [List.pairwise_cons]
      refine ⟨fun r hr => ?_, List.pairwise_cons.mpr h⟩
      simp only [List.mem_cons] at hr
      rcases hr with rfl | hr
      · unfold keyLe
        simpa using hq
      · have hqr := h.1 r hr
        unfold keyLe at hqr ⊢
        exact lexLt_le_trans p.1 q.1 r.1 (by simpa using hq) hqr

theorem sortPairs_sorted (l : List (List Nat × Value)) :
    (sortPairs l).Pairwise keyLe := by
  induction l with
  | nil => simp [sortPairs]
  | cons p ps ih => exact insertPair_sorted p _ ih

/-- Sorting an association list with pairwise-distinct keys is
insertion-order independent. -/
theorem sortPairs_eq_of_perm (l₁ l₂ : List (List Nat × Value))
    (hp : l₁.Perm l₂) (hk : l₁.Pairwise (fun p q => p.1 ≠ q.1)) :
    sortPairs l₁ = sortPairs l₂ := by
  have hk₂ : l₂.Pairwise (fun p q => p.1 ≠ q.1) :=
    (hp.pairwise_iff (fun h he => h he.symm)).mp hk
  have hd₁ : (sortPairs l₁).Pairwise (fun p q => p.1 ≠ q.1) :=
    ((sortPairs_perm l₁).pairwise_iff (fun h he => h he.symm)).mpr hk
  have hd₂ : (sortPairs l₂).Pairwise (fun p q => p.1 ≠ q.1) :=
    ((sortPairs_perm l₂).pairwise_iff (fun h he => h he.symm)).mpr hk₂
  have hs₁ := (sortPairs_sorted l₁).and hd₁
  have hs₂ := (sortPairs_sorted l₂).and hd₂
  have strict : ∀ m : List (List Nat × Value),
      m.Pairwise (fun p q => keyLe p q ∧ p.1 ≠ q.1) →
      m.Pairwise (fun p q : List Nat × Value => lexLt p.1 q.1 = true) := by
    intro m hm
    refine hm.imp ?_
    intro p q ⟨hle, hne⟩
    rcases lexLt_connex p.1 q.1 hne with h | h
    · exact h
    · unfold keyLe at hle
      simp_all
  haveI : IsAntisymm (List Nat × Value)
      (fun p q : List Nat × Value => lexLt p.1 q.1 = true) :=
    ⟨fun a b hab hba => absurd (lexLt_asymm _ _ hab hba) (fun h => h)⟩
  exact List.eq_of_perm_of_sorted
    ((sortPairs_perm l₁).trans (hp.trans (sortPairs_perm l₂).symm))
    (strict _ hs₁) (strict _ hs₂)

theorem sortedKeys_tail (a : List Nat) (r : List (List Nat)) :
    sortedKeys (a :: r) = true → sortedKeys r = true := by
  cases r with
  | nil => intro; rfl
  | cons b s =>
    intro h
    simp only [sortedKeys, Bool.and_eq_true] at h
    exact h.2

/-- A list whose keys are already strictly sorted is left unchanged by
`sortPairs`. -/
theorem sortPairs_of_sortedKeys (l : List (List Nat × Value))
    (h : sortedKeys (l.map Prod.fst) = true) : sortPairs l = l := by
  induction l with
  | nil => rfl
  | cons p ps ih =>
    have hps : sortedKeys (ps.map Prod.fst) = true := by
      have := sortedKeys_tail p.1 (ps.map Prod.fst)
      simp only [List.map_cons] at h
      exact this h
    rw [sortPairs, ih hps]
    cases ps with
    | nil => rfl
    | cons q qs =>
      have hpq : lexLt p.1 q.1 = true := by
        simp only [List.map_cons, sortedKeys, Bool.and_eq_true] at h
        exact h.1
      have : lexLt q.1 p.1 = false := by
        cases hqp : lexLt q.1 p.1
        · rfl
        · exact absurd (lexLt_asymm _ _ hpq hqp) (fun h => h)
      simp [insertPair, this]

/-! ## Lemmas: shape of encoded values -/

/-- Every encoding is non-empty and never starts with the terminator
byte `'e'` (101). -/
theorem bencodeRaw_cons (v : Value) :
    ∃ c t, bencodeRaw v = c :: t ∧ c ≠ 101 := by
  cases v with
  | str s =>
    obtain ⟨d, ds, hnd⟩ := List.exists_cons_of_ne_nil (natDec_ne_nil s.length)
    have hdig := natDec_isDigit s.length d (by rw [hnd]; simp)
    exact ⟨d, ds ++ 58 :: s, by simp [bencodeRaw, hnd], by omega⟩
  | int n => exact ⟨105, intDec n ++ [101], by simp [bencodeRaw], by omega⟩
  | list l => exact ⟨108, bencodeList l ++ [101], by simp [bencodeRaw], by omega⟩
  | dict d => exact ⟨100, bencodePairs d ++ [101], by simp [bencodeRaw], by omega⟩

theorem bencodeRaw_length_pos (v : Value) : 1 ≤ (bencodeRaw v).length := by
  obtain ⟨c, t, h, _⟩ := bencodeRaw_cons v
  simp [h]

/-! ## The parser inverts the serializer

Proved for all three mutual parsing functions at once, by strong
induction on the fuel. -/

theorem roundtrip_aux : ∀ fuel : Nat,
    (∀ v rest, intsNonneg v = true → (bencodeRaw v).length ≤ fuel →
      auxV fuel (bencodeRaw v ++ rest) = some (v, rest))
    ∧ (∀ l rest, intsNonnegList l = true → (bencodeList l).length + 1 ≤ fuel →
      parseList fuel (bencodeList l ++ 101 :: rest) = some (l, rest))
    ∧ (∀ ps rest, intsNonnegPairs ps = true →
      (bencodePairs ps).length + 1 ≤ fuel →
      parsePairs fuel (bencodePairs ps ++ 101 :: rest) = some (ps, rest)) := by
  intro fuel
  induction fuel using Nat.strong_induction_on with
  | _ fuel ih =>
    match fuel with
    | 0 =>
      refine ⟨fun v rest _ hf => ?_, fun l rest _ hf => ?_, fun ps rest _ hf => ?_⟩
      · exact absurd hf (by have := bencodeRaw_length_pos v; omega)
      · omega
      · omega
    | fuel + 1 =>
      obtain ⟨ih1, ih2, ih3⟩ := ih fuel (by omega)
      refine ⟨fun v rest hnn hf => ?_, fun l rest hnn hf => ?_,
        fun ps rest hnn hf => ?_⟩
      · -- `auxV` inverts `bencodeRaw`
        cases v with
        | str s =>
          obtain ⟨d, ds, hnd⟩ :=
            List.exists_cons_of_ne_nil (natDec_ne_nil s.length)
          have hdig : 48 ≤ d ∧ d ≤ 57 :=
            natDec_isDigit s.length d (by rw [hnd]; simp)
          have h58 : ¬(48 ≤ 58 ∧ 58 ≤ 57) := by omega
          have hsplit : bencodeRaw (.str s) ++ rest
              = d :: (ds ++ 58 :: (s ++ rest)) := by
            simp [bencodeRaw, hnd]
          rw [hsplit]
          simp only [auxV, if_pos hdig,
            parseNum_natDec_tail s.length 58 (s ++ rest) h58 d ds hnd]
          have hlen : ¬((s ++ rest).length < s.length) := by simp
          simp only [if_pos rfl, if_neg hlen, List.take_left, List.drop_left]
          simp
        | int n =>
          have hn : (0 : Int) ≤ n := by
            simpa [intsNonneg] using hnn
          have h101 : ¬(48 ≤ 101 ∧ 101 ≤ 57) := by omega
          have hsplit : bencodeRaw (.int n) ++ rest
              = 105 :: (natDec n.toNat ++ 101 :: rest) := by
            simp [bencodeRaw, intDec, Int.not_lt.mpr hn]
          rw [hsplit]
          simp only [auxV, if_neg (by omega : ¬(48 ≤ 105 ∧ 105 ≤ 57)),
            if_pos rfl, parseNum_natDec n.toNat 101 rest h101]
          simp [Int.toNat_of_nonneg hn]
        | list l =>
          have hsplit : bencodeRaw (.list l) ++ rest
              = 108 :: (bencodeList l ++ 101 :: rest) := by
            simp [bencodeRaw]
          rw [hsplit]
          have hln : intsNonnegList l = true := by
            simpa [intsNonneg] using hnn
          have hfl : (bencodeList l).length + 1 ≤ fuel := by
            have : (bencodeRaw (.list l)).length
                = (bencodeList l).length + 2 := by
              simp [bencodeRaw]
            omega
          simp only [auxV, if_neg (by omega : ¬(48 ≤ 108 ∧ 108 ≤ 57)),
            if_neg (by omega : ¬(108 = 105)), if_neg (by omega : ¬(108 = 100)),
            if_pos rfl, ih2 l rest hln hfl]
          simp
        | dict d =>
          have hsplit : bencodeRaw (.dict d) ++ rest
              = 100 :: (bencodePairs d ++ 101 :: rest) := by
            simp [bencodeRaw]
          rw [hsplit]
          have hdn : intsNonnegPairs d = true := by
            simpa [intsNonneg] using hnn
          have hfd : (bencodePairs d).length + 1 ≤ fuel := by
            have : (bencodeRaw (.dict d)).length
                = (bencodePairs d).length + 2 := by
              simp [bencodeRaw]
            omega
          simp only [auxV, if_neg (by omega : ¬(48 ≤ 100 ∧ 100 ≤ 57)),
            if_neg (by omega : ¬(100 = 105)), if_pos rfl, ih3 d rest hdn hfd]
          simp
      · -- `parseList` inverts `bencodeList`
        cases l with
        | nil =>
          simp [bencodeList, parseList]
        | cons v vs =>
          obtain ⟨c, t, hct, hc⟩ := bencodeRaw_cons v
          have hsplit : bencodeList (v :: vs) ++ 101 :: rest
              = c :: (t ++ (bencodeList vs ++ 101 :: rest)) := by
            simp [bencodeList, hct]
          have hback : c :: (t ++ (bencodeList vs ++ 101 :: rest))
              = bencodeRaw v ++ (bencodeList vs ++ 101 :: rest) := by
            simp [hct]
          have hnv : intsNonneg v = true ∧ intsNonnegList vs = true := by
            simpa [intsNonnegList, Bool.and_eq_true] using hnn
          have hlen : (bencodeList (v :: vs)).length
              = (bencodeRaw v).length + (bencodeList vs).length := by
            simp [bencodeList]
          have hv1 := bencodeRaw_length_pos v
          rw [hsplit]
          simp only [parseList, if_neg hc]
          rw [hback, ih1 v _ hnv.1 (by omega)]
          simp only [ih2 vs rest hnv.2 (by omega)]
      · -- `parsePairs` inverts `bencodePairs`
        cases ps with
        | nil =>
          simp [bencodePairs, parsePairs]
        | cons p ps =>
          obtain ⟨k, v⟩ := p
          obtain ⟨c, t, hct, hc⟩ := bencodeRaw_cons (.str k)
          have hsplit : bencodePairs ((k, v) :: ps) ++ 101 :: rest
              = c :: (t ++ (bencodeRaw v ++ (bencodePairs ps ++ 101 :: rest))) := by
            simp [bencodePairs, hct]
          have hback : c :: (t ++ (bencodeRaw v ++ (bencodePairs ps ++ 101 :: rest)))
              = bencodeRaw (.str k) ++ (bencodeRaw v ++ (bencodePairs ps ++ 101 :: rest)) := by
            simp [hct]
          have hnv : intsNonneg v = true ∧ intsNonnegPairs ps = true := by
            simpa [intsNonnegPairs, Bool.and_eq_true] using hnn
          have hlen : (bencodePairs ((k, v) :: ps)).length
              = (bencodeRaw (.str k)).length + (bencodeRaw v).length
                + (bencodePairs ps).length := by
            simp [bencodePairs]
            omega
          have hk1 := bencodeRaw_length_pos (.str k)
          have hv1 := bencodeRaw_length_pos v
          rw [hsplit]
          simp only [parsePairs, if_neg hc]
          rw [hback, ih1 (.str k) _ rfl (by omega)]
          simp only [ih1 v _ hnv.1 (by omega), ih3 ps rest hnv.2 (by omega)]

/-! ## An induction principle for `Value` trees -/

theorem value_ind (motive : Value → Prop)
    (hstr : ∀ s, motive (.str s)) (hint : ∀ n, motive (.int n))
    (hlist : ∀ l, (∀ v ∈ l, motive v) → motive (.list l))
    (hdict : ∀ d, (∀ p ∈ d, motive p.2) → motive (.dict d)) :
    ∀ v, motive v
  | .str s => hstr s
  | .int n => hint n
  | .list l =>
    hlist l fun w hw => value_ind motive hstr hint hlist hdict w
  | .dict d =>
    hdict d fun p hp => value_ind motive hstr hint hlist hdict p.2
termination_by v => sizeOf v
decreasing_by
  · have h1 := List.sizeOf_lt_of_mem hw
    simp only [Value.list.sizeOf_spec]
    omega
  · have h1 := List.sizeOf_lt_of_mem hp
    have h2 : sizeOf p.2 < sizeOf p := by
      obtain ⟨a, b⟩ := p
      simp only [Prod.mk.sizeOf_spec]
      omega
    simp only [Value.dict.sizeOf_spec]
    omega

/-! ## Canonical trees and `sortValue` -/

theorem sortValueList_eq_map (l : List Value) :
    sortValueList l = l.map sortValue := by
  induction l with
  | nil => rfl
  | cons v vs ih => simp [sortValueList, ih]

theorem sortValuePairs_eq_map (d : List (List Nat × Value)) :
    sortValuePairs d = d.map (fun p => (p.1, sortValue p.2)) := by
  induction d with
  | nil => rfl
  | cons p ps ih =>
    obtain ⟨k, v⟩ := p
    simp [sortValuePairs, ih]

theorem intsNonnegList_iff (l : List Value) :
    intsNonnegList l = true ↔ ∀ v ∈ l, intsNonneg v = true := by
  induction l with
  | nil => simp [intsNonnegList]
  | cons v vs ih => simp [intsNonnegList, ih]

theorem intsNonnegPairs_iff (d : List (List Nat × Value)) :
    intsNonnegPairs d = true ↔ ∀ p ∈ d, intsNonneg p.2 = true := by
  induction d with
  | nil => simp [intsNonnegPairs]
  | cons p ps ih =>
    obtain ⟨k, v⟩ := p
    simp [intsNonnegPairs, ih]

theorem canonicalL_iff (l : List Value) :
    canonicalL l = true ↔ ∀ v ∈ l, canonicalV v = true := by
  induction l with
  | nil => simp [canonicalL]
  | cons v vs ih => simp [canonicalL, ih]

theorem canonicalP_iff (d : List (List Nat × Value)) :
    canonicalP d = true ↔ ∀ p ∈ d, canonicalV p.2 = true := by
  induction d with
  | nil => simp [canonicalP]
  | cons p ps ih =>
    obtain ⟨k, v⟩ := p
    simp [canonicalP, ih]

theorem canonical_intsNonneg : ∀ v, canonicalV v = true → intsNonneg v = true := by
  refine value_ind _ (fun s _ => rfl) (fun n h => h) ?_ ?_
  · intro l ihl h
    simp only [canonicalV] at h
    simp only [intsNonneg]
    exact (intsNonnegList_iff l).mpr fun v hv =>
      ihl v hv ((canonicalL_iff l).mp h v hv)
  · intro d ihd h
    simp only [canonicalV, Bool.and_eq_true] at h
    simp only [intsNonneg]
    exact (intsNonnegPairs_iff d).mpr fun p hp =>
      ihd p hp ((canonicalP_iff d).mp h.2 p hp)

theorem map_sortValue_eq_self (m : List Value) :
    (∀ v ∈ m, sortValue v = v) → m.map sortValue = m := by
  induction m with
  | nil => intro _; rfl
  | cons a t iht =>
    intro hm
    simp only [List.map_cons, hm a (by simp),
      iht (fun v hv => hm v (by simp [hv]))]

theorem map_sortValuePair_eq_self (m : List (List Nat × Value)) :
    (∀ p ∈ m, sortValue p.2 = p.2) →
    m.map (fun p => (p.1, sortValue p.2)) = m := by
  induction m with
  | nil => intro _; rfl
  | cons q t iht =>
    intro hm
    obtain ⟨k, v⟩ := q
    have hv := hm (k, v) (by simp)
    simp only at hv
    simp only [List.map_cons, hv, iht (fun p hp => hm p (by simp [hp]))]

theorem sortValue_eq_of_canonical :
    ∀ v, canonicalV v = true → sortValue v = v := by
  refine value_ind _ (fun s _ => rfl) (fun n _ => rfl) ?_ ?_
  · intro l ihl h
    simp only [canonicalV] at h
    have hall : ∀ v ∈ l, sortValue v = v := fun v hv =>
      ihl v hv ((canonicalL_iff l).mp h v hv)
    simp only [sortValue, sortValueList_eq_map, map_sortValue_eq_self l hall]
  · intro d ihd h
    simp only [canonicalV, Bool.and_eq_true] at h
    have hvals : ∀ p ∈ d, sortValue p.2 = p.2 := fun p hp =>
      ihd p hp ((canonicalP_iff d).mp h.2 p hp)
    simp only [sortValue, sortValuePairs_eq_map,
      map_sortValuePair_eq_self d hvals, sortPairs_of_sortedKeys d h.1]

theorem intsNonneg_sortValue :
    ∀ v, intsNonneg v = true → intsNonneg (sortValue v) = true := by
  refine value_ind _ (fun s h => h) (fun n h => h) ?_ ?_
  · intro l ihl h
    simp only [intsNonneg, sortValue, sortValueList_eq_map] at h ⊢
    rw [intsNonnegList_iff] at h ⊢
    intro w hw
    obtain ⟨v, hv, rfl⟩ := List.mem_map.mp hw
    exact ihl v hv (h v hv)
  · intro d ihd h
    simp only [intsNonneg, sortValue] at h ⊢
    rw [intsNonnegPairs_iff] at h ⊢
    intro p hp
    have hp' : p ∈ sortValuePairs d := (sortPairs_perm _).mem_iff.mp hp
    rw [sortValuePairs_eq_map] at hp'
    obtain ⟨q, hq, rfl⟩ := List.mem_map.mp hp'
    exact ihd q hq (h q hq)

/-- Decoding the canonical encoding of a canonical tree, with any bytes
appended, returns the tree (for any value of the ignored offset). -/
theorem bdecode_bencode_append (v : Value) (h : canonicalV v = true)
    (s : List Nat) (off : Nat) : bdecode (bencode v ++ s) off = some v := by
  have hnn : intsNonneg v = true := canonical_intsNonneg v h
  have hsv : sortValue v = v := sortValue_eq_of_canonical v h
  unfold bdecode bencode
  rw [hsv]
  rw [(roundtrip_aux (2 * (bencodeRaw v ++ s).length + 2)).1 v s hnn
    (by simp [List.length_append]; omega)]
  rfl

/-! ## The parsers consume a prefix of their input -/

theorem parseNum_suffix (input : List Nat) : ∀ acc n copt rest,
    parseNum acc input = (n, copt, rest) → rest.IsSuffix input := by
  induction input with
  | nil =>
    intro acc n copt rest h
    simp only [parseNum] at h
    cases h
    exact List.nil_suffix
  | cons c r ih =>
    intro acc n copt rest h
    by_cases hc : 48 ≤ c ∧ c ≤ 57
    · rw [parseNum, if_pos hc] at h
      exact (ih _ _ _ _ h).trans (List.suffix_cons c r)
    · rw [parseNum, if_neg hc] at h
      cases h
      exact List.suffix_cons c r

theorem parser_suffix : ∀ fuel : Nat,
    (∀ input v rest, auxV fuel input = some (v, rest) → rest.IsSuffix input)
    ∧ (∀ input l rest, parseList fuel input = some (l, rest) →
        rest.IsSuffix input)
    ∧ (∀ input ps rest, parsePairs fuel input = some (ps, rest) →
        rest.IsSuffix input) := by
  intro fuel
  induction fuel using Nat.strong_induction_on with
  | _ fuel ih =>
    match fuel with
    | 0 => refine ⟨?_, ?_, ?_⟩ <;> intro input a rest h <;> simp [auxV,
        parseList, parsePairs] at h
    | fuel + 1 =>
      obtain ⟨ih1, ih2, ih3⟩ := ih fuel (by omega)
      refine ⟨?_, ?_, ?_⟩
      · intro input v rest h
        match input with
        | [] => simp [auxV] at h
        | magic :: rest0 =>
          rw [auxV] at h
          by_cases hdig : 48 ≤ magic ∧ magic ≤ 57
          · rw [if_pos hdig] at h
            rcases hpn : parseNum (magic - 48) rest0 with ⟨len, sep, rest1⟩
            rw [hpn] at h
            simp only at h
            by_cases hsep : sep = some 58
            · rw [if_pos hsep] at h
              by_cases hshort : rest1.length < len
              · rw [if_pos hshort] at h
                exact absurd h (by simp)
              · rw [if_neg hshort] at h
                have := parseNum_suffix rest0 _ _ _ _ hpn
                obtain ⟨-, rfl⟩ : v = .str (rest1.take len) ∧ rest = rest1.drop len := by
                  have := Option.some.inj h
                  exact ⟨congrArg Prod.fst this.symm, congrArg Prod.snd this.symm⟩
                exact ((List.drop_suffix len rest1).trans this).trans
                  (List.suffix_cons magic rest0)
            · rw [if_neg hsep] at h
              exact absurd h (by simp)
          · rw [if_neg hdig] at h
            by_cases h105 : magic = 105
            · rw [if_pos h105] at h
              rcases hpn : parseNum 0 rest0 with ⟨n, fin, rest1⟩
              rw [hpn] at h
              simp only at h
              by_cases hfin : fin = some 101
              · rw [if_pos hfin] at h
                obtain ⟨-, rfl⟩ : v = .int (Int.ofNat n) ∧ rest = rest1 := by
                  have := Option.some.inj h
                  exact ⟨congrArg Prod.fst this.symm, congrArg Prod.snd this.symm⟩
                exact (parseNum_suffix rest0 _ _ _ _ hpn).trans
                  (List.suffix_cons magic rest0)
              · rw [if_neg hfin] at h
                exact absurd h (by simp)
            · rw [if_neg h105] at h
              by_cases h100 : magic = 100
              · rw [if_pos h100] at h
                rcases hpp : parsePairs fuel rest0 with _ | ⟨d, rest1⟩
                · rw [hpp] at h
                  exact absurd h (by simp)
                · rw [hpp] at h
                  simp only at h
                  obtain ⟨-, rfl⟩ : v = .dict d ∧ rest = rest1 := by
                    have := Option.some.inj h
                    exact ⟨congrArg Prod.fst this.symm, congrArg Prod.snd this.symm⟩
                  exact (ih3 _ _ _ hpp).trans (List.suffix_cons magic rest0)
              · rw [if_neg h100] at h
                by_cases h108 : magic = 108
                · rw [if_pos h108] at h
                  rcases hpl : parseList fuel rest0 with _ | ⟨l, rest1⟩
                  · rw [hpl] at h
                    exact absurd h (by simp)
                  · rw [hpl] at h
                    simp only at h
                    obtain ⟨-, rfl⟩ : v = .list l ∧ rest = rest1 := by
                      have := Option.some.inj h
                      exact ⟨congrArg Prod.fst this.symm, congrArg Prod.snd this.symm⟩
                    exact (ih2 _ _ _ hpl).trans (List.suffix_cons magic rest0)
                · rw [if_neg h108] at h
                  exact absurd h (by simp)
      · intro input l rest h
        match input with
        | [] => simp [parseList] at h
        | c :: r =>
          rw [parseList] at h
          by_cases hc : c = 101
          · rw [if_pos hc] at h
            obtain ⟨-, rfl⟩ : l = [] ∧ rest = r := by
              have := Option.some.inj h
              exact ⟨congrArg Prod.fst this.symm, congrArg Prod.snd this.symm⟩
            exact List.suffix_cons _ _
          · rw [if_neg hc] at h
            rcases hv : auxV fuel (c :: r) with _ | ⟨v, rest1⟩
            · rw [hv] at h
              exact absurd h (by simp)
            · rw [hv] at h
              simp only at h
              rcases hl : parseList fuel rest1 with _ | ⟨vs, rest2⟩
              · rw [hl] at h
                exact absurd h (by simp)
              · rw [hl] at h
                obtain ⟨-, rfl⟩ : l = v :: vs ∧ rest = rest2 := by
                  have := Option.some.inj h
                  exact ⟨congrArg Prod.fst this.symm, congrArg Prod.snd this.symm⟩
                exact (ih2 _ _ _ hl).trans (ih1 _ _ _ hv)
      · intro input ps rest h
        match input with
        | [] => simp [parsePairs] at h
        | c :: r =>
          rw [parsePairs] at h
          by_cases hc : c = 101
          · rw [if_pos hc] at h
            obtain ⟨-, rfl⟩ : ps = [] ∧ rest = r := by
              have := Option.some.inj h
              exact ⟨congrArg Prod.fst this.symm, congrArg Prod.snd this.symm⟩
            exact List.suffix_cons _ _
          · rw [if_neg hc] at h
            rcases hk : auxV fuel (c :: r) with _ | ⟨k, rest1⟩
            · rw [hk] at h
              exact absurd h (by simp)
            · rw [hk] at h
              cases k with
              | str k0 =>
                simp only at h
                rcases hv : auxV fuel rest1 with _ | ⟨v, rest2⟩
                · rw [hv] at h
                  exact absurd h (by simp)
                · rw [hv] at h
                  simp only at h
                  rcases hp : parsePairs fuel rest2 with _ | ⟨ps0, rest3⟩
                  · rw [hp] at h
                    exact absurd h (by simp)
                  · rw [hp] at h
                    obtain ⟨-, rfl⟩ : ps = (k0, v) :: ps0 ∧ rest = rest3 := by
                      have := Option.some.inj h
                      exact ⟨congrArg Prod.fst this.symm, congrArg Prod.snd this.symm⟩
                    exact ((ih3 _ _ _ hp).trans (ih1 _ _ _ hv)).trans
                      (ih1 _ _ _ hk)
              | int n => exact absurd h (by simp)
              | list l0 => exact absurd h (by simp)
              | dict d0 => exact absurd h (by simp)

/-! ## Containers whose input holds no terminator byte fail -/

theorem noTerm : ∀ fuel : Nat,
    (∀ input, 101 ∉ input → parseList fuel input = none)
    ∧ (∀ input, 101 ∉ input → parsePairs fuel input = none) := by
  intro fuel
  induction fuel with
  | zero => exact ⟨fun input _ => rfl, fun input _ => rfl⟩
  | succ fuel ihf =>
    constructor
    · intro input h
      match input with
      | [] => rfl
      | c :: r =>
        have hc : c ≠ 101 := fun he => h (he ▸ List.mem_cons_self c r)
        rw [parseList, if_neg hc]
        rcases hv : auxV fuel (c :: r) with _ | ⟨v, rest1⟩
        · simp [hv]
        · have hsuf := (parser_suffix fuel).1 _ _ _ hv
          have h101 : 101 ∉ rest1 := fun hm => h (hsuf.subset hm)
          simp [hv, ihf.1 rest1 h101]
    · intro input h
      match input with
      | [] => rfl
      | c :: r =>
        have hc : c ≠ 101 := fun he => h (he ▸ List.mem_cons_self c r)
        rw [parsePairs, if_neg hc]
        rcases hk : auxV fuel (c :: r) with _ | ⟨k, rest1⟩
        · simp [hk]
        · cases k with
          | str k0 =>
            have hsuf1 := (parser_suffix fuel).1 _ _ _ hk
            have h1 : 101 ∉ rest1 := fun hm => h (hsuf1.subset hm)
            rcases hv : auxV fuel rest1 with _ | ⟨v, rest2⟩
            · simp [hk, hv]
            · have hsuf2 := (parser_suffix fuel).1 _ _ _ hv
              have h2 : 101 ∉ rest2 := fun hm => h1 (hsuf2.subset hm)
              simp [hk, hv, ihf.2 rest2 h2]
          | int n => simp [hk]
          | list l0 => simp [hk]
          | dict d0 => simp [hk]

/-! ## Lemmas: the Merkle reduction -/

theorem hashPairs_nil (digest : List Nat → List Nat) :
    hashPairs digest [] = [] := by
  rw [hashPairs]
  simp

/-- One pairing pass on a block of exactly 40 bytes is one digest. -/
theorem hashPairs_single (digest : List Nat → List Nat) (l : List Nat)
    (h : l.length = 40) : hashPairs digest l = digest l := by
  have hne : l ≠ [] := by
    intro he
    subst he
    simp at h
  rw [hashPairs, if_neg hne, List.take_of_length_le (by omega),
    List.drop_eq_nil_of_le (by omega), hashPairs_nil, List.append_nil]

theorem hashPairs_length (digest : List Nat → List Nat)
    (hd : ∀ b, (digest b).length = 20) :
    ∀ m l, l.length = 40 * m → (hashPairs digest l).length = 20 * m := by
  intro m
  induction m with
  | zero =>
    intro l hl
    have : l = [] := List.eq_nil_of_length_eq_zero (by omega)
    subst this
    simp [hashPairs_nil]
  | succ m ih =>
    intro l hl
    have hne : l ≠ [] := by
      intro he
      subst he
      simp at hl
    rw [hashPairs, if_neg hne]
    have hdrop : (l.drop 40).length = 40 * m := by
      simp only [List.length_drop]
      omega
    simp only [List.length_append, hd, ih (l.drop 40) hdrop]
    omega

theorem merkleLoop_exit (digest : List Nat → List Nat) (fuel : Nat)
    (pieces pad : List Nat) (h : ¬(pieces.length > 20)) :
    merkleLoop digest fuel pieces pad = pieces := by
  cases fuel with
  | zero => rfl
  | succ f => rw [merkleLoop, if_neg h]

theorem merkleLoop_step_even (digest : List Nat → List Nat) (f : Nat)
    (pieces pad : List Nat) (h : pieces.length > 20)
    (hm : pieces.length % 40 = 0) :
    merkleLoop digest (f + 1) pieces pad
      = merkleLoop digest f (hashPairs digest pieces) (digest (pad ++ pad)) := by
  rw [merkleLoop, if_pos h, if_neg (by omega)]

theorem merkleLoop_step_odd (digest : List Nat → List Nat) (f : Nat)
    (pieces pad : List Nat) (h : pieces.length > 20)
    (hm : pieces.length % 40 ≠ 0) :
    merkleLoop digest (f + 1) pieces pad
      = merkleLoop digest f (hashPairs digest (pieces ++ pad))
          (digest (pad ++ pad)) := by
  rw [merkleLoop, if_pos h, if_pos hm]

/-- The reduction loop always ends with a single 20-byte hash, given
enough fuel (`n` rounds suffice for `n` hashes). -/
theorem merkleLoop_length (digest : List Nat → List Nat)
    (hd : ∀ b, (digest b).length = 20) :
    ∀ n fuel pieces pad, pieces.length = 20 * n → pad.length = 20 →
      1 ≤ n → n ≤ fuel →
      (merkleLoop digest fuel pieces pad).length = 20 := by
  intro n
  induction n using Nat.strong_induction_on with
  | _ n ihn =>
    intro fuel pieces pad h20 hpad h1 hf
    by_cases hn1 : n = 1
    · subst hn1
      rw [merkleLoop_exit digest fuel pieces pad (by omega)]
      omega
    · have hn2 : 2 ≤ n := by omega
      obtain ⟨f, rfl⟩ : ∃ f, fuel = f + 1 := ⟨fuel - 1, by omega⟩
      have hgt : pieces.length > 20 := by omega
      by_cases hpar : n % 2 = 0
      · have hm : pieces.length % 40 = 0 := by omega
        rw [merkleLoop_step_even digest f pieces pad hgt hm]
        exact ihn (n / 2) (by omega) f _ _
          (by rw [hashPairs_length digest hd (n / 2) pieces (by omega)])
          (by simp [hd]) (by omega) (by omega)
      · have hm : pieces.length % 40 ≠ 0 := by omega
        rw [merkleLoop_step_odd digest f pieces pad hgt hm]
        refine ihn ((n + 1) / 2) (by omega) f _ _ ?_ (by simp [hd])
          (by omega) (by omega)
        rw [hashPairs_length digest hd ((n + 1) / 2) (pieces ++ pad)
          (by simp [hpad]; omega)]

/-! ## Lemmas: the chunk hasher against the windowing specification -/

theorem chunksExact_small (L : Nat) (c : List Nat) (h : c.length < L) :
    chunksExact L c = ([], c) := by
  rw [chunksExact, if_pos (Or.inr h)]

theorem chunksExact_step (L : Nat) (c : List Nat) (hL : 0 < L)
    (h : L ≤ c.length) :
    chunksExact L c
      = ((c.take L) :: (chunksExact L (c.drop L)).1,
          (chunksExact L (c.drop L)).2) := by
  rw [chunksExact, if_neg (by omega)]

theorem chunksExact_snd_lt (L : Nat) (hL : 0 < L) :
    ∀ c, (chunksExact L c).2.length < L := by
  have main : ∀ n (c : List Nat), c.length = n →
      (chunksExact L c).2.length < L := by
    intro n
    induction n using Nat.strong_induction_on with
    | _ n ihn =>
      intro c hc
      by_cases hlt : c.length < L
      · rw [chunksExact_small L c hlt]
        simpa using hlt
      · rw [chunksExact_step L c hL (by omega)]
        exact ihn (c.drop L).length (by simp [List.length_drop]; omega) _ rfl
  exact fun c => main c.length c rfl

theorem chunksExact_fst_length (L : Nat) (hL : 0 < L) :
    ∀ c, (chunksExact L c).1.length = c.length / L := by
  have main : ∀ n (c : List Nat), c.length = n →
      (chunksExact L c).1.length = c.length / L := by
    intro n
    induction n using Nat.strong_induction_on with
    | _ n ihn =>
      intro c hc
      by_cases hlt : c.length < L
      · rw [chunksExact_small L c hlt]
        simp [Nat.div_eq_of_lt hlt]
      · rw [chunksExact_step L c hL (by omega)]
        simp only [List.length_cons,
          ihn (c.drop L).length (by simp [List.length_drop]; omega) _ rfl]
        rw [List.length_drop]
        conv_rhs => rw [show c.length = (c.length - L) + L by omega]
        rw [Nat.add_div_right _ hL]
  exact fun c => main c.length c rfl

theorem chunksExact_snd_length (L : Nat) (hL : 0 < L) :
    ∀ c, (chunksExact L c).2.length = c.length % L := by
  have main : ∀ n (c : List Nat), c.length = n →
      (chunksExact L c).2.length = c.length % L := by
    intro n
    induction n using Nat.strong_induction_on with
    | _ n ihn =>
      intro c hc
      by_cases hlt : c.length < L
      · rw [chunksExact_small L c hlt, Nat.mod_eq_of_lt hlt]
      · rw [chunksExact_step L c hL (by omega)]
        simp only [ihn (c.drop L).length (by simp [List.length_drop]; omega) _ rfl]
        rw [List.length_drop]
        conv_rhs => rw [show c.length = (c.length - L) + L by omega]
        rw [Nat.add_mod_right]
  exact fun c => main c.length c rfl

theorem chunksExact_mem_length (L : Nat) (hL : 0 < L) :
    ∀ c w, w ∈ (chunksExact L c).1 → w.length = L := by
  have main : ∀ n (c : List Nat), c.length = n →
      ∀ w, w ∈ (chunksExact L c).1 → w.length = L := by
    intro n
    induction n using Nat.strong_induction_on with
    | _ n ihn =>
      intro c hc w hw
      by_cases hlt : c.length < L
      · rw [chunksExact_small L c hlt] at hw
        simp at hw
      · rw [chunksExact_step L c hL (by omega)] at hw
        simp only [List.mem_cons] at hw
        rcases hw with rfl | hw
        · simp [List.length_take]
          omega
        · exact ihn (c.drop L).length (by simp [List.length_drop]; omega) _ rfl
            w hw
  exact fun c => main c.length c rfl

/-- The single-file piece loop is exactly: hash every complete window,
then hash the non-empty remainder. -/
theorem hashSingle_spec (digest : List Nat → List Nat) (L : Nat) (hL : 0 < L) :
    ∀ c, hashSingle digest L c
      = (chunksExact L c).1.map digest
        ++ (if (chunksExact L c).2 = [] then []
            else [digest (chunksExact L c).2]) := by
  have main : ∀ n (c : List Nat), c.length = n → hashSingle digest L c
      = (chunksExact L c).1.map digest
        ++ (if (chunksExact L c).2 = [] then []
            else [digest (chunksExact L c).2]) := by
    intro n
    induction n using Nat.strong_induction_on with
    | _ n ihn =>
      intro c hc
      by_cases hlt : c.length < L
      · rw [hashSingle, List.take_of_length_le (Nat.le_of_lt hlt),
          chunksExact_small L c hlt]
        by_cases hc0 : c.length = 0
        · have : c = [] := List.eq_nil_of_length_eq_zero hc0
          subst this
          simp
        · have hne : c ≠ [] := by
            intro he
            subst he
            simp at hc0
          rw [if_neg hc0, if_pos hlt]
          simp [hne]
      · have hTL : (c.take L).length = L := by
          simp [List.length_take]
          omega
        rw [hashSingle, hTL, if_neg (by omega), if_neg (by omega),
          chunksExact_step L c hL (by omega),
          ihn (c.drop L).length (by simp [List.length_drop]; omega) _ rfl]
        simp
  exact fun c => main c.length c rfl

/-- The per-file loop of the directory branch: starting from a partial
accumulator shorter than one chunk, it hashes every complete window of
`accumulator ++ file` and returns the remainder as the new accumulator. -/
theorem hashFile_spec (digest : List Nat → List Nat) (L : Nat) (hL : 0 < L) :
    ∀ c acc, acc.length < L →
      hashFile digest L c acc
        = ((chunksExact L (acc ++ c)).1.map digest,
            (chunksExact L (acc ++ c)).2) := by
  have main : ∀ n (c : List Nat), c.length = n → ∀ acc, acc.length < L →
      hashFile digest L c acc
        = ((chunksExact L (acc ++ c)).1.map digest,
            (chunksExact L (acc ++ c)).2) := by
    intro n
    induction n using Nat.strong_induction_on with
    | _ n ihn =>
      intro c hc acc hacc
      by_cases h0 : (c.take (L - acc.length)).length = 0
      · have hc0 : c = [] := by
          simp only [List.length_take] at h0
          exact List.eq_nil_of_length_eq_zero (by omega)
        subst hc0
        rw [hashFile, if_pos (by simp), List.append_nil,
          chunksExact_small L acc hacc]
        simp
      · have hsub : 1 ≤ L - acc.length ∧ 1 ≤ c.length := by
          simp only [List.length_take] at h0
          omega
        by_cases h1 : acc.length + (c.take (L - acc.length)).length < L
        · have hclen : c.length < L - acc.length := by
            simp only [List.length_take] at h1
            omega
          have htake : c.take (L - acc.length) = c :=
            List.take_of_length_le (by omega)
          rw [hashFile, if_neg h0, if_pos h1, htake,
            chunksExact_small L (acc ++ c) (by simp; omega)]
          simp
        · have hmin : (c.take (L - acc.length)).length = L - acc.length := by
            simp only [List.length_take] at h0 h1 ⊢
            omega
          have hcge : L - acc.length ≤ c.length := by
            simp only [List.length_take] at hmin
            omega
          have hsplit1 : (acc ++ c).take L = acc ++ c.take (L - acc.length) := by
            rw [List.take_append_eq_append_take,
              List.take_of_length_le (by omega)]
          have hsplit2 : (acc ++ c).drop L = c.drop (L - acc.length) := by
            rw [List.drop_append_eq_append_drop,
              List.drop_eq_nil_of_le (by omega)]
            simp
          have hrec := ihn (c.drop (L - acc.length)).length
            (by simp [List.length_drop]; omega) _ rfl [] (by simpa using hL)
          simp only [List.nil_append] at hrec
          rw [hashFile, if_neg h0, if_neg h1, hrec,
            chunksExact_step L (acc ++ c) hL (by simp; omega),
            hsplit1, hsplit2]
          simp
  exact fun c => main c.length c rfl

/-- Windowing a concatenation: the windows of `x ++ y` are the complete
windows of `x` followed by the windows of `x`'s remainder joined with
`y`, and the remainders agree. -/
theorem chunksExact_append (L : Nat) (hL : 0 < L) :
    ∀ x y : List Nat,
      (chunksExact L (x ++ y)).1
        = (chunksExact L x).1
          ++ (chunksExact L ((chunksExact L x).2 ++ y)).1
      ∧ (chunksExact L (x ++ y)).2
        = (chunksExact L ((chunksExact L x).2 ++ y)).2 := by
  have main : ∀ n (x : List Nat), x.length = n → ∀ y : List Nat,
      (chunksExact L (x ++ y)).1
        = (chunksExact L x).1
          ++ (chunksExact L ((chunksExact L x).2 ++ y)).1
      ∧ (chunksExact L (x ++ y)).2
        = (chunksExact L ((chunksExact L x).2 ++ y)).2 := by
    intro n
    induction n using Nat.strong_induction_on with
    | _ n ihn =>
      intro x hx y
      by_cases hlt : x.length < L
      · rw [chunksExact_small L x hlt]
        simp
      · have hstep : L ≤ x.length := by omega
        have htake : (x ++ y).take L = x.take L :=
          List.take_append_of_le_length hstep
        have hdrop : (x ++ y).drop L = x.drop L ++ y :=
          List.drop_append_of_le_length hstep
        rw [chunksExact_step L x hL hstep,
          chunksExact_step L (x ++ y) hL (by simp; omega), htake, hdrop]
        obtain ⟨ih1, ih2⟩ :=
          ihn (x.drop L).length (by simp [List.length_drop]; omega) _ rfl y
        exact ⟨by simp [ih1], by simp [ih2]⟩
  exact fun x => main x.length x rfl

/-- The directory walk hashes exactly the windows of the logical
concatenation of all files, plus the non-empty final remainder. -/
theorem hashFiles_spec (digest : List Nat → List Nat) (L : Nat) (hL : 0 < L) :
    ∀ files acc, acc.length < L →
      hashFiles digest L files acc
        = (chunksExact L (acc ++ files.flatten)).1.map digest
          ++ (if (chunksExact L (acc ++ files.flatten)).2 = [] then []
              else [digest (chunksExact L (acc ++ files.flatten)).2]) := by
  intro files
  induction files with
  | nil =>
    intro acc hacc
    rw [hashFiles]
    simp only [List.flatten_nil, List.append_nil,
      chunksExact_small L acc hacc]
    by_cases hacc0 : acc = [] <;> simp [hacc0]
  | cons f fs ih =>
    intro acc hacc
    rw [hashFiles, hashFile_spec digest L hL f acc hacc]
    have hrem : (chunksExact L (acc ++ f)).2.length < L :=
      chunksExact_snd_lt L hL (acc ++ f)
    rw [ih _ hrem]
    have hassoc : acc ++ (f :: fs).flatten = (acc ++ f) ++ fs.flatten := by
      simp [List.flatten_cons]
    obtain ⟨h1, h2⟩ := chunksExact_append L hL (acc ++ f) fs.flatten
    rw [hassoc, h1, h2]
    simp [List.map_append]

/-! ## Lemmas: hex rendering and digest injectivity transport -/

theorem hexChar_inj (a b : Nat) (ha : a < 16) (hb : b < 16)
    (h : hexChar a = hexChar b) : a = b := by
  unfold hexChar at h
  split_ifs at h <;> omega

theorem hexBytes_inj : ∀ l1 l2 : List Nat, (∀ x ∈ l1, x < 256) →
    (∀ x ∈ l2, x < 256) → hexBytes l1 = hexBytes l2 → l1 = l2 := by
  intro l1
  induction l1 with
  | nil =>
    intro l2 _ _ h
    cases l2 with
    | nil => rfl
    | cons b bs => simp [hexBytes] at h
  | cons a as ih =>
    intro l2 h1 h2 h
    cases l2 with
    | nil => simp [hexBytes] at h
    | cons b bs =>
      simp only [hexBytes, List.flatMap_cons, List.cons_append,
        List.nil_append, List.cons.injEq] at h
      have ha := h1 a (List.mem_cons_self a as)
      have hb := h2 b (List.mem_cons_self b bs)
      have e1 : a / 16 = b / 16 :=
        hexChar_inj _ _ (by omega) (by omega) h.1
      have e2 : a % 16 = b % 16 :=
        hexChar_inj _ _ (by omega) (by omega) h.2.1
      have : a = b := by omega
      rw [this, ih bs (fun x hx => h1 x (by simp [hx]))
        (fun x hx => h2 x (by simp [hx])) h.2.2]

theorem replicate_ones_inj : ∀ a b (t1 t2 : List Nat),
    List.replicate a 1 ++ 0 :: t1 = List.replicate b 1 ++ 0 :: t2 →
    a = b ∧ t1 = t2 := by
  intro a
  induction a with
  | zero =>
    intro b t1 t2 h
    cases b with
    | zero =>
      simp only [List.replicate_zero, List.nil_append, List.cons.injEq] at h
      exact ⟨rfl, h.2⟩
    | succ b => simp [List.replicate_succ] at h
  | succ a ih =>
    intro b t1 t2 h
    cases b with
    | zero => simp [List.replicate_succ] at h
    | succ b =>
      simp only [List.replicate_succ, List.cons_append, List.cons.injEq,
        true_and] at h
      obtain ⟨e, t⟩ := ih b t1 t2 h
      exact ⟨by omega, t⟩

theorem unaryDigest_inj : Function.Injective unaryDigest := by
  intro l1 l2 h
  induction l1 generalizing l2 with
  | nil =>
    cases l2 with
    | nil => rfl
    | cons b bs => simp [unaryDigest] at h
  | cons a as ih =>
    cases l2 with
    | nil => simp [unaryDigest] at h
    | cons b bs =>
      simp only [unaryDigest, List.flatMap_cons] at h
      rw [List.append_assoc, List.append_assoc, List.singleton_append,
        List.singleton_append] at h
      obtain ⟨e, t⟩ := replicate_ones_inj a b _ _ h
      rw [e, ih t]

theorem unaryDigest_lt256 : ∀ l, ∀ x ∈ unaryDigest l, x < 256 := by
  intro l x hx
  simp only [unaryDigest, List.mem_flatMap] at hx
  obtain ⟨n, -, hx⟩ := hx
  simp only [List.mem_append, List.mem_replicate, List.mem_singleton] at hx
  rcases hx with ⟨-, rfl⟩ | rfl <;> omega

/-! ## Injectivity of the encoder (via decoding) -/

theorem bdecode_bencodeRaw (u : Value) (h : intsNonneg u = true) :
    bdecode (bencodeRaw u) = some u := by
  unfold bdecode
  have hr := (roundtrip_aux (2 * (bencodeRaw u).length + 2)).1 u []
    h (by omega)
  rw [List.append_nil] at hr
  rw [hr]
  rfl

/-- Two trees with non-negative integers that encode to the same bytes
have the same canonical (key-sorted) form. -/
theorem bencode_inj_sortValue (v w : Value) (hv : intsNonneg v = true)
    (hw : intsNonneg w = true) (h : bencode v = bencode w) :
    sortValue v = sortValue w := by
  have e1 : bdecode (bencode v) = some (sortValue v) :=
    bdecode_bencodeRaw (sortValue v) (intsNonneg_sortValue v hv)
  have e2 : bdecode (bencode w) = some (sortValue w) :=
    bdecode_bencodeRaw (sortValue w) (intsNonneg_sortValue w hw)
  rw [h] at e1
  exact Option.some.inj (e1.symm.trans e2)

/-! ## Lemmas: the single-file `info` dictionary -/

theorem intsNonneg_buildInfo (digest : List Nat → List Nat) (L : Nat)
    (nm content : List Nat) (priv merkle : Bool) :
    intsNonneg (buildInfo digest L nm content priv merkle) = true := by
  cases priv <;> cases merkle <;>
    simp [buildInfo, intsNonneg, intsNonnegPairs]

/-- The canonical (key-sorted) form of the `info` dictionary: `length`,
`name`, `piece length`, then `pieces` (flat mode), `private` (if set)
and `root hash` (tree mode), in byte-lexicographic key order. -/
theorem sortValue_buildInfo (digest : List Nat → List Nat) (L : Nat)
    (nm content : List Nat) (priv merkle : Bool) :
    sortValue (buildInfo digest L nm content priv merkle)
      = Value.dict
        ([(strBytes "length", Value.int content.length),
          (strBytes "name", Value.str nm),
          (strBytes "piece length", Value.int L)]
          ++ (if merkle then [] else
              [(strBytes "pieces",
                Value.str ((hashSingle digest L content).foldr (· ++ ·) []))])
          ++ (if priv then [(strBytes "private", Value.int 1)] else [])
          ++ (if merkle then
              [(strBytes "root hash",
                Value.str (merkleRoot digest
                  ((hashSingle digest L content).foldr (· ++ ·) [])))]
              else [])) := by
  cases priv <;> cases merkle <;> rfl

/-! ## Claim theorems -/

/-- C1: the round-trip contract `decode(encode(v)) == v` fails on
negative integers.  `bencode` renders `-1` as `b"i-1e"` (marker `'i'`,
leading `'-'`, digits, `'e'`), exactly as the claim describes the
encoder; but `bdecode`'s integer branch reads digits only and then
requires `'e'`, so it raises `ValueError` on the `'-'` byte instead of
returning `-1`.  This theorem evaluates the code at the failing input. -/
theorem bdecode_bencode_neg_int :
    bencode (Value.int (-1)) = [105, 45, 49, 101]
      ∧ bdecode (bencode (Value.int (-1))) = none := by
  have he : bencode (Value.int (-1)) = [105, 45, 49, 101] := by
    simp [bencode, sortValue, bencodeRaw, intDec, natDec, natDecAux]
  refine ⟨he, ?_⟩
  rw [he]
  rfl

/-- C2: the tree-mode aggregation is the pairwise binary reduction: a
single hash is its own root; two hashes give `digest(h1 ++ h2)`; three
hashes are padded with the level-0 padding (20 zero bytes) and reduce to
`digest(digest(h1 ++ h2) ++ digest(h3 ++ 20*0x00))`. -/
theorem merkleRoot_pairwise_reduction (digest : List Nat → List Nat)
    (h1 h2 h3 : List Nat) (hd : ∀ b, (digest b).length = 20)
    (hl1 : h1.length = 20) (hl2 : h2.length = 20) (hl3 : h3.length = 20) :
    merkleRoot digest h1 = h1
    ∧ merkleRoot digest (h1 ++ h2) = digest (h1 ++ h2)
    ∧ merkleRoot digest (h1 ++ h2 ++ h3)
        = digest (digest (h1 ++ h2) ++ digest (h3 ++ List.replicate 20 0)) := by
  refine ⟨?_, ?_, ?_⟩
  · exact merkleLoop_exit digest h1.length h1 _ (by omega)
  · have h40 : (h1 ++ h2).length = 40 := by simp [hl1, hl2]
    rw [merkleRoot, h40, show (40 : Nat) = 39 + 1 from rfl,
      merkleLoop_step_even digest 39 _ _ (by omega) (by omega),
      hashPairs_single digest _ h40]
    exact merkleLoop_exit digest 39 _ _ (by rw [hd]; omega)
  · have h40a : (h1 ++ h2).length = 40 := by simp [hl1, hl2]
    have h60 : (h1 ++ h2 ++ h3).length = 60 := by simp [hl1, hl2, hl3]
    have h40b : (h3 ++ List.replicate 20 0).length = 40 := by simp [hl3]
    rw [merkleRoot, h60, show (60 : Nat) = 59 + 1 from rfl,
      merkleLoop_step_odd digest 59 _ _ (by omega) (by omega)]
    have hsplit : (h1 ++ h2 ++ h3) ++ List.replicate 20 0
        = (h1 ++ h2) ++ (h3 ++ List.replicate 20 0) := by
      simp [List.append_assoc]
    have hne : (h1 ++ h2) ++ (h3 ++ List.replicate 20 0) ≠ [] := by
      intro he
      have := congrArg List.length he
      simp only [List.length_append, List.length_nil] at this
      omega
    have e : hashPairs digest ((h1 ++ h2) ++ (h3 ++ List.replicate 20 0))
        = digest (h1 ++ h2) ++ digest (h3 ++ List.replicate 20 0) := by
      rw [hashPairs, if_neg hne,
        List.take_append_of_le_length (by omega),
        List.take_of_length_le (by omega),
        List.drop_append_of_le_length (by omega),
        List.drop_eq_nil_of_le (by omega), List.nil_append,
        hashPairs_single digest _ h40b]
    rw [hsplit, e]
    have h40c : (digest (h1 ++ h2) ++ digest (h3 ++ List.replicate 20 0)).length
        = 40 := by
      simp [hd]
    rw [show (59 : Nat) = 58 + 1 from rfl,
      merkleLoop_step_even digest 58 _ _ (by omega) (by omega),
      hashPairs_single digest _ h40c]
    exact merkleLoop_exit digest 58 _ _ (by rw [hd]; omega)

/-- C9: for every non-empty sequence of `n` 20-byte hashes the
tree-mode loop terminates with exactly one 20-byte root (the fuel
`pieces.length` supplied by `merkleRoot` is never exhausted since every
round at least halves the hash count), and for a single hash the loop
body runs zero times, returning the input unchanged. -/
theorem merkleRoot_terminates (digest : List Nat → List Nat)
    (pieces : List Nat) (n : Nat) (hd : ∀ b, (digest b).length = 20)
    (hlen : pieces.length = 20 * n) (hn : 1 ≤ n) :
    (merkleRoot digest pieces).length = 20
    ∧ (n = 1 → merkleRoot digest pieces = pieces) := by
  constructor
  · exact merkleLoop_length digest hd n pieces.length pieces _ hlen
      (by simp) hn (by omega)
  · intro h1
    subst h1
    exact merkleLoop_exit digest pieces.length pieces _ (by omega)

theorem hashSingle_count (digest : List Nat → List Nat) (L : Nat)
    (hL : 0 < L) (c : List Nat) :
    (hashSingle digest L c).length
      = c.length / L + (if c.length % L = 0 then 0 else 1) := by
  rw [hashSingle_spec digest L hL c, List.length_append, List.length_map,
    chunksExact_fst_length L hL]
  congr 1
  by_cases h : (chunksExact L c).2 = []
  · have h0 : c.length % L = 0 := by
      have := chunksExact_snd_length L hL c
      rw [h] at this
      simpa using this.symm
    rw [if_pos h, if_pos h0]
    rfl
  · have h0 : c.length % L ≠ 0 := by
      intro he
      have := chunksExact_snd_length L hL c
      rw [he] at this
      exact h (List.eq_nil_of_length_eq_zero this)
    rw [if_neg h, if_neg h0]
    rfl

/-- C3: the chunk hasher emits one descriptor per complete `L`-byte
window of the logical concatenation (chunks may span file boundaries)
plus one descriptor for a non-empty remainder: both the single-file loop
and the directory loop refine the windowing function `chunksExact`; a
`3L`-byte source gives exactly 3 descriptors, a `(3L+1)`-byte source
gives 4 with the last over a single byte, and two `L/2`-byte files give
exactly one descriptor over the concatenation of both files. -/
theorem chunkHasher_spec (digest : List Nat → List Nat) (L : Nat)
    (hL : 0 < L) :
    (∀ files : List (List Nat), hashFiles digest L files []
        = (chunksExact L files.flatten).1.map digest
          ++ (if (chunksExact L files.flatten).2 = [] then []
              else [digest (chunksExact L files.flatten).2]))
    ∧ (∀ c, hashSingle digest L c
        = (chunksExact L c).1.map digest
          ++ (if (chunksExact L c).2 = [] then []
              else [digest (chunksExact L c).2]))
    ∧ (∀ c : List Nat, c.length = 3 * L → (hashSingle digest L c).length = 3)
    ∧ (∀ c : List Nat, c.length = 3 * L + 1 →
        (hashSingle digest L c).length = 4
        ∧ ∃ pre last, hashSingle digest L c = pre ++ [digest last]
            ∧ last.length = 1)
    ∧ (∀ f1 f2 : List Nat, L % 2 = 0 → f1.length = L / 2 →
        f2.length = L / 2 → hashFiles digest L [f1, f2] [] = [digest (f1 ++ f2)]) := by
  refine ⟨?_, hashSingle_spec digest L hL, ?_, ?_, ?_⟩
  · intro files
    have := hashFiles_spec digest L hL files [] (by simpa using hL)
    simpa using this
  · intro c hc
    rw [hashSingle_count digest L hL c, hc]
    have h1 : 3 * L / L = 3 := by
      rw [show 3 * L = L * 3 by ring]
      exact Nat.mul_div_cancel_left 3 hL
    have h2 : 3 * L % L = 0 := Nat.mul_mod_left 3 L
    rw [h1, h2]
    norm_num
  · intro c hc
    constructor
    · rw [hashSingle_count digest L hL c, hc]
      by_cases hL1 : L = 1
      · subst hL1
        norm_num
      · have h1 : (3 * L + 1) / L = 3 := by
          rw [show 3 * L + 1 = 1 + L * 3 by ring, Nat.add_mul_div_left 1 3 hL,
            Nat.div_eq_of_lt (by omega)]
        have h2 : (3 * L + 1) % L = 1 := by
          rw [show 3 * L + 1 = 1 + L * 3 by ring, Nat.add_mul_mod_self_left,
            Nat.mod_eq_of_lt (by omega)]
        rw [h1, h2]
        norm_num
    · by_cases hL1 : L = 1
      · subst hL1
        have hrem : (chunksExact 1 c).2 = [] := by
          apply List.eq_nil_of_length_eq_zero
          rw [chunksExact_snd_length 1 (by norm_num) c, hc]
        have hspec := hashSingle_spec digest 1 (by norm_num) c
        rw [hrem, if_pos rfl, List.append_nil] at hspec
        have hfst : (chunksExact 1 c).1 ≠ [] := by
          intro he
          have := chunksExact_fst_length 1 (by norm_num) c
          rw [he, hc] at this
          simp at this
        refine ⟨((chunksExact 1 c).1.dropLast).map digest,
          (chunksExact 1 c).1.getLast hfst, ?_, ?_⟩
        · rw [hspec]
          conv_lhs => rw [← List.dropLast_append_getLast hfst]
          simp
        · exact chunksExact_mem_length 1 (by norm_num) c _
            (List.getLast_mem hfst)
      · have hrlen : (chunksExact L c).2.length = 1 := by
          rw [chunksExact_snd_length L hL c, hc,
            show 3 * L + 1 = 1 + L * 3 by ring, Nat.add_mul_mod_self_left,
            Nat.mod_eq_of_lt (by omega)]
        have hrne : (chunksExact L c).2 ≠ [] := by
          intro he
          rw [he] at hrlen
          simp at hrlen
        refine ⟨(chunksExact L c).1.map digest, (chunksExact L c).2, ?_, hrlen⟩
        rw [hashSingle_spec digest L hL c, if_neg hrne]
  · intro f1 f2 hpar hf1 hf2
    have htot : (f1 ++ f2).length = L := by
      simp [hf1, hf2]
      omega
    have hspec := hashFiles_spec digest L hL [f1, f2] [] (by simpa using hL)
    simp only [List.nil_append, List.flatten_cons, List.flatten_nil,
      List.append_nil] at hspec
    have hstep := chunksExact_step L (f1 ++ f2) hL (by omega)
    rw [List.drop_eq_nil_of_le (by omega), List.take_of_length_le (by omega),
      chunksExact_small L [] (by simpa using hL)] at hstep
    rw [hspec, hstep]
    simp

/-- C4: the infohash is the hex digest of the canonical encoding of the
`info` sub-dictionary only, so two metainfos over the same content and
descriptor options but different announce lists, comments and creation
times have identical identifiers, while (for a collision-free,
byte-valued digest) changing the chunk size changes the identifier
because the encoded descriptors already differ. -/
theorem infohash_info_only (digest : List Nat → List Nat) (L1 L2 : Nat)
    (nm content : List Nat) (a1 a2 : List (List (List Nat)))
    (c1 c2 : Option (List Nat)) (t1 t2 : Nat) (priv merkle : Bool) :
    infohash digest (buildMetainfo digest L1 nm content a1 c1 t1 priv merkle)
      = infohash digest (buildMetainfo digest L1 nm content a2 c2 t2 priv merkle)
    ∧ (Function.Injective digest → (∀ l, ∀ x ∈ digest l, x < 256) →
        L1 ≠ L2 →
        infohash digest (buildMetainfo digest L1 nm content a1 c1 t1 priv merkle)
          ≠ infohash digest
              (buildMetainfo digest L2 nm content a1 c1 t1 priv merkle)) := by
  constructor
  · rfl
  · intro hinj hbytes hne heq
    apply hne
    unfold infohash at heq
    have h1 := hexBytes_inj _ _ (hbytes _) (hbytes _) heq
    have h2 := hinj h1
    have h3 := bencode_inj_sortValue _ _
      (intsNonneg_buildInfo digest L1 nm content priv merkle)
      (intsNonneg_buildInfo digest L2 nm content priv merkle) h2
    rw [sortValue_buildInfo digest L1 nm content priv merkle,
      sortValue_buildInfo digest L2 nm content priv merkle] at h3
    cases priv <;> cases merkle <;>
    · simp only [if_pos, if_neg, List.cons_append, List.nil_append,
        Bool.false_eq_true, ite_false, ite_true, Value.dict.injEq,
        List.cons.injEq, Prod.mk.injEq, Value.int.injEq,
        Int.natCast_inj] at h3
      tauto

/-- C5 counterexample: the claim says `decode(buffer, k)` decodes the
valid encoding placed at offset `k` and returns the value with its
consumed-byte count; but on `b"xi3e"` with offset 1 (where `b"i3e"`, the
encoding of 3, sits) the code raises on the marker byte `'x'` at
position 0 — the offset argument is ignored. -/
theorem bdecode_offset_ignored_cex : bdecode [120, 105, 51, 101] 1 = none := rfl

/-- C5 (amended): `bdecode(data, offset=0)` accepts the documented
offset parameter but never uses it — decoding always starts at position
0 — and returns only the decoded value, not a (value, bytesConsumed)
pair; for a canonical encoding at position 0 (any trailing bytes
allowed) it returns the encoded value, whatever the offset argument. -/
theorem bdecode_signature (data : List Nat) (off : Nat) :
    bdecode data off = bdecode data 0
    ∧ (∀ (v : Value) (s : List Nat), canonicalV v = true →
        bdecode (bencode v ++ s) off = some v) :=
  ⟨rfl, fun v s h => bdecode_bencode_append v h s off⟩

/-- C6 counterexample: the claim says a failed build leaves the final
destination unchanged, but `main` runs `open(infoname, 'wb')` — which
creates or truncates the destination — before constructing the
`Metainfo`; when the build fails on a previously absent destination, an
empty file remains. -/
theorem mainWrite_not_atomic_cex : runMain none none ≠ none := by
  intro h
  simp [runMain, mainEvents, applyEvent] at h

/-- C6 (amended): `main` opens (creates or truncates) the destination
before assembling the bundle; if the in-memory build raises, an empty
artifact is left at the destination, and if it succeeds the full
encoding is written in a single `write` call. -/
theorem mainWrite_behaviour (dest0 : Option (List Nat)) :
    (∀ bs, runMain dest0 (some bs) = some bs)
    ∧ runMain dest0 none = some [] :=
  ⟨fun _ => rfl, rfl⟩

/-- C7: map encoding is canonical and insertion-order independent —
encoding a dictionary whose pairs were inserted in reverse order yields
byte-identical output, the emitted pair sequence is the key-sorted one,
and the emitted keys are strictly ascending in byte-lexicographic
order. -/
theorem bencode_dict_canonical_order (d : List (List Nat × Value))
    (hk : d.Pairwise (fun p q => p.1 ≠ q.1)) :
    bencode (Value.dict d.reverse) = bencode (Value.dict d)
    ∧ bencode (Value.dict d)
        = 100 :: (bencodePairs (sortPairs (sortValuePairs d)) ++ [101])
    ∧ ((sortPairs (sortValuePairs d)).map Prod.fst).Pairwise
        (fun a b => lexLt a b = true) := by
  have hk' : (sortValuePairs d).Pairwise (fun p q => p.1 ≠ q.1) := by
    rw [sortValuePairs_eq_map, List.pairwise_map]
    exact hk
  refine ⟨?_, ?_, ?_⟩
  · have hrev : sortValuePairs d.reverse = (sortValuePairs d).reverse := by
      rw [sortValuePairs_eq_map, sortValuePairs_eq_map, List.map_reverse]
    have hkrev : ((sortValuePairs d).reverse).Pairwise
        (fun p q => p.1 ≠ q.1) := by
      rw [List.pairwise_reverse]
      exact hk'.imp (fun h => h.symm)
    have hsort := sortPairs_eq_of_perm _ _ (List.reverse_perm _) hkrev
    simp only [bencode, sortValue]
    rw [hrev, hsort]
  · simp [bencode, sortValue, bencodeRaw]
  · have hsorted := sortPairs_sorted (sortValuePairs d)
    have hdist : (sortPairs (sortValuePairs d)).Pairwise
        (fun p q => p.1 ≠ q.1) :=
      ((sortPairs_perm _).pairwise_iff (fun h he => h he.symm)).mpr hk'
    rw [List.pairwise_map]
    refine (hsorted.and hdist).imp ?_
    intro p q hpq
    obtain ⟨hle, hne⟩ := hpq
    rcases lexLt_connex p.1 q.1 hne with h | h
    · exact h
    · unfold keyLe at hle
      simp_all

/-- C8: decode raises on each malformed input of the claim — a string
whose declared length exceeds the available bytes, an integer without
its terminator, a dictionary with a key but no value — and a list or
dictionary whose input holds no terminator byte fails rather than
returning a truncated container. -/
theorem bdecode_rejects_malformed :
    bdecode (strBytes "3:ab") = none
    ∧ bdecode (strBytes "i3x") = none
    ∧ bdecode (strBytes "d3:keye") = none
    ∧ (∀ rest : List Nat, 101 ∉ rest →
        bdecode (108 :: rest) = none ∧ bdecode (100 :: rest) = none) := by
  refine ⟨rfl, rfl, rfl, fun rest h => ⟨?_, ?_⟩⟩
  · unfold bdecode
    obtain ⟨f, hf⟩ : ∃ f, 2 * ((108 :: rest).length) + 2 = f + 1 :=
      ⟨2 * (108 :: rest).length + 1, by omega⟩
    rw [hf]
    simp only [auxV]
    rw [if_neg (by omega : ¬(48 ≤ 108 ∧ 108 ≤ 57)),
      if_neg (by omega : ¬(108 = 105)), if_neg (by omega : ¬(108 = 100)),
      if_pos trivial, (noTerm f).1 rest h]
    rfl
  · unfold bdecode
    obtain ⟨f, hf⟩ : ∃ f, 2 * ((100 :: rest).length) + 2 = f + 1 :=
      ⟨2 * (100 :: rest).length + 1, by omega⟩
    rw [hf]
    simp only [auxV]
    rw [if_neg (by omega : ¬(48 ≤ 100 ∧ 100 ≤ 57)),
      if_neg (by omega : ¬(100 = 105)), if_pos trivial, (noTerm f).2 rest h]
    rfl

/-- C10: decode reads exactly one complete value and silently ignores
trailing bytes: appending any suffix to a canonical encoding neither
fails nor changes the decoded value. -/
theorem bdecode_ignores_trailing (v : Value) (s : List Nat)
    (h : canonicalV v = true) :
    bdecode (bencode v ++ s) = bdecode (bencode v)
    ∧ bdecode (bencode v ++ s) = some v := by
  have h1 := bdecode_bencode_append v h s 0
  have h2 := bdecode_bencode_append v h [] 0
  rw [List.append_nil] at h2
  exact ⟨h1.trans h2.symm, h1⟩

/-! ## Witnesses -/

/-- Witness for C2 at a concrete digest and concrete 20-byte hashes. -/
theorem merkleRoot_pairwise_reduction_witness :
    merkleRoot (fun _ => List.replicate 20 0) (List.replicate 20 1)
        = List.replicate 20 1
    ∧ merkleRoot (fun _ => List.replicate 20 0)
        (List.replicate 20 1 ++ List.replicate 20 2) = List.replicate 20 0
    ∧ merkleRoot (fun _ => List.replicate 20 0)
        (List.replicate 20 1 ++ List.replicate 20 2 ++ List.replicate 20 3)
        = List.replicate 20 0 :=
  merkleRoot_pairwise_reduction (fun _ => List.replicate 20 0)
    (List.replicate 20 1) (List.replicate 20 2) (List.replicate 20 3)
    (fun _ => by simp) (by simp) (by simp) (by simp)

/-- Witness for C3 with `L = 2`: a 6-byte source gives 3 chunks, and two
1-byte files give one chunk spanning both. -/
theorem chunkHasher_spec_witness :
    (hashSingle (fun l => l) 2 [9, 9, 9, 9, 9, 9]).length = 3
    ∧ hashFiles (fun l => l) 2 [[1], [2]] [] = [[1] ++ [2]] :=
  ⟨(chunkHasher_spec (fun l => l) 2 (by decide)).2.2.1 [9, 9, 9, 9, 9, 9]
      (by decide),
    (chunkHasher_spec (fun l => l) 2 (by decide)).2.2.2.2 [1] [2]
      (by decide) (by decide) (by decide)⟩

/-- Witness for C4 at a concrete injective byte-valued digest: the
identifier ignores announce/comment/timestamp and distinguishes chunk
sizes 1 and 2. -/
theorem infohash_info_only_witness :
    infohash unaryDigest
        (buildMetainfo unaryDigest 1 [97] [5] [] none 0 false false)
      = infohash unaryDigest
          (buildMetainfo unaryDigest 1 [97] [5] [[[104]]] (some [99]) 7
            false false)
    ∧ infohash unaryDigest
        (buildMetainfo unaryDigest 1 [97] [5] [] none 0 false false)
      ≠ infohash unaryDigest
          (buildMetainfo unaryDigest 2 [97] [5] [] none 0 false false) := by
  have h := infohash_info_only unaryDigest 1 2 [97] [5] [] [[[104]]] none
    (some [99]) 0 7 false false
  exact ⟨h.1, h.2 unaryDigest_inj unaryDigest_lt256 (by decide)⟩

/-- Witness for C5 (amended): a canonical encoding with a trailing byte
decodes to its value whatever the offset argument. -/
theorem bdecode_signature_witness :
    bdecode (bencode (Value.int 3) ++ [0]) 5 = some (Value.int 3) :=
  (bdecode_signature [] 5).2 (Value.int 3) [0] (by decide)

/-- Witness for C7 at a concrete two-key dictionary inserted in reverse
order. -/
theorem bencode_dict_canonical_order_witness :
    bencode (Value.dict ([([98], Value.int 0), ([97], Value.int 1)].reverse))
      = bencode (Value.dict [([98], Value.int 0), ([97], Value.int 1)])
    ∧ bencode (Value.dict [([98], Value.int 0), ([97], Value.int 1)])
        = 100 :: (bencodePairs (sortPairs (sortValuePairs
            [([98], Value.int 0), ([97], Value.int 1)])) ++ [101])
    ∧ ((sortPairs (sortValuePairs
          [([98], Value.int 0), ([97], Value.int 1)])).map Prod.fst).Pairwise
        (fun a b => lexLt a b = true) :=
  bencode_dict_canonical_order [([98], Value.int 0), ([97], Value.int 1)]
    (by decide)

/-- Witness for C8's unterminated-container clause at a concrete
terminator-free tail. -/
theorem bdecode_rejects_malformed_witness :
    bdecode (108 :: strBytes "4:spam") = none
    ∧ bdecode (100 :: strBytes "4:spam") = none :=
  bdecode_rejects_malformed.2.2.2 (strBytes "4:spam") (by decide)

/-- Witness for C9 at a single concrete 20-byte hash. -/
theorem merkleRoot_terminates_witness :
    (merkleRoot (fun _ => List.replicate 20 0) (List.replicate 20 7)).length
        = 20
    ∧ (1 = 1 → merkleRoot (fun _ => List.replicate 20 0)
        (List.replicate 20 7) = List.replicate 20 7) :=
  merkleRoot_terminates (fun _ => List.replicate 20 0) (List.replicate 20 7) 1
    (fun _ => by simp) (by simp) (by decide)

/-- Witness for C10 at a concrete canonical dictionary with a trailing
byte. -/
theorem bdecode_ignores_trailing_witness :
    bdecode (bencode (Value.dict [([97], Value.int 1)]) ++ [120])
        = bdecode (bencode (Value.dict [([97], Value.int 1)]))
    ∧ bdecode (bencode (Value.dict [([97], Value.int 1)]) ++ [120])
        = some (Value.dict [([97], Value.int 1)]) :=
  bdecode_ignores_trailing (Value.dict [([97], Value.int 1)]) [120] (by decide)

end Gentorrent
